import Mathlib

/-!
Shallow embedding of the PortSlayer port scanner (`src/port_scanner.rs`).

Strings from the Rust source are modelled as `List Char` (the inputs of the
parsers are ASCII command / kernel-table output, where Rust byte indices and
char indices coincide).  Fallible operations are modelled with `Option` /
`Except`; the side-effecting external commands of `kill_process` are modelled
by an explicit oracle function together with a trace of the issued commands.
-/

namespace PortSlayer

/-- Whitespace test mirroring `char::is_whitespace` on the ASCII range used by
`split_whitespace` and `trim` of the Rust source. -/
def isWsChar (c : Char) : Bool :=
  c = ' ' || c = '\t' || c = '\n' || c = '\r'

/-- Accumulator-based splitter behind `splitWs`, mirroring
`str::split_whitespace` (maximal runs of non-whitespace). -/
def splitWsAux : List Char → List Char → List (List Char)
  | [], acc => if acc = [] then [] else [acc.reverse]
  | c :: cs, acc =>
    if isWsChar c then
      if acc = [] then splitWsAux cs [] else acc.reverse :: splitWsAux cs []
    else splitWsAux cs (c :: acc)

/-- Embedding of `str::split_whitespace(..).collect()`. -/
def splitWs (l : List Char) : List (List Char) := splitWsAux l []

/-- Leading-whitespace removal (left half of `str::trim`). -/
def trimLeft (l : List Char) : List Char := l.dropWhile isWsChar

/-- Trailing-whitespace removal (right half of `str::trim`). -/
def trimRight : List Char → List Char
  | [] => []
  | c :: cs =>
    let r := trimRight cs
    if r = [] ∧ isWsChar c then [] else c :: r

/-- Embedding of `str::trim`. -/
def rustTrim (l : List Char) : List Char := trimLeft (trimRight l)

/-- Accumulator-based splitter behind `splitChar`. -/
def splitCharGo (sep : Char) : List Char → List Char → List (List Char)
  | [], acc => [acc.reverse]
  | c :: cs, acc =>
    if c = sep then acc.reverse :: splitCharGo sep cs [] else splitCharGo sep cs (c :: acc)

/-- Embedding of `str::split(sep).collect()`. -/
def splitChar (l : List Char) (sep : Char) : List (List Char) := splitCharGo sep l []

/-- Strip one trailing carriage return, as `str::lines` does per line. -/
def stripCR (l : List Char) : List Char :=
  if l.getLast? = some '\r' then l.dropLast else l

/-- Embedding of `str::lines(..).collect()`: split on newline, drop a final
empty segment produced by a trailing newline, strip a trailing `\r`. -/
def linesOf (l : List Char) : List (List Char) :=
  let segs := splitChar l '\n'
  let segs := if segs.getLast? = some [] then segs.dropLast else segs
  segs.map stripCR

/-- First index at which `pat` occurs as a contiguous sub-sequence of `l`,
mirroring `str::find(pattern)`. -/
def findSub : List Char → List Char → Option Nat
  | [], pat => if pat.isPrefixOf ([] : List Char) then some 0 else none
  | c :: cs, pat =>
    if pat.isPrefixOf (c :: cs) then some 0 else (findSub cs pat).map (· + 1)

/-- `findSub` succeeding is the decidable substring test used for
`str::contains(pattern)`. -/
def hasSub (l pat : List Char) : Bool := (findSub l pat).isSome

/-- First index at which a character predicate holds, mirroring
`str::find(predicate)`. -/
def findIdxP (p : Char → Bool) : List Char → Option Nat
  | [] => none
  | c :: cs => if p c then some 0 else (findIdxP p cs).map (· + 1)

/-- First index of character `c` in `l`, mirroring `str::find(char)`. -/
def findChar (l : List Char) (c : Char) : Option Nat := findIdxP (· = c) l

/-- Last index of character `c` in `l`, mirroring `str::rfind(char)`. -/
def rfindChar (l : List Char) (c : Char) : Option Nat :=
  (findIdxP (· = c) l.reverse).map (fun i => l.length - 1 - i)

/-- Rust slice `&s[a..b]` on our character lists. -/
def slice (l : List Char) (a b : Nat) : List Char := (l.drop a).take (b - a)

/-- Decimal digit test (`char::is_ascii_digit`). -/
def isAsciiDigit (c : Char) : Bool := '0' ≤ c && c ≤ '9'

/-- Value of a decimal digit character. -/
def digitVal10 (c : Char) : Option Nat :=
  if isAsciiDigit c then some (c.toNat - '0'.toNat) else none

/-- Hexadecimal digit value (`char::to_digit(16)`). -/
def digitVal16 (c : Char) : Option Nat :=
  if isAsciiDigit c then some (c.toNat - '0'.toNat)
  else if c ≤ 'f' && 'a' ≤ c then some (c.toNat - 'a'.toNat + 10)
  else if c ≤ 'F' && 'A' ≤ c then some (c.toNat - 'A'.toNat + 10)
  else none

/-- Digit-accumulation loop of Rust's integer `from_str` / `from_str_radix`:
every character must be a digit of the base and every intermediate value must
stay below `bound` (overflow is an error). -/
def parseDigitsGo (base : Nat) (digv : Char → Option Nat) (bound : Nat) :
    Nat → List Char → Option Nat
  | acc, [] => some acc
  | acc, c :: cs =>
    match digv c with
    | some d => if acc * base + d < bound then parseDigitsGo base digv bound (acc * base + d) cs else none
    | none => none

/-- Embedding of Rust's unsigned-integer string parsing: an optional leading
`+` sign followed by a non-empty digit string, rejecting overflow past
`bound`. -/
def rustParseNat (base : Nat) (digv : Char → Option Nat) (bound : Nat)
    (l : List Char) : Option Nat :=
  match l with
  | [] => none
  | c :: cs =>
    if c = '+' then
      match cs with
      | [] => none
      | _ => parseDigitsGo base digv bound 0 cs
    else parseDigitsGo base digv bound 0 (c :: cs)

/-- `str::parse::<u16>()`. -/
def parseU16 (l : List Char) : Option Nat := rustParseNat 10 digitVal10 (2 ^ 16) l

/-- `str::parse::<u32>()`. -/
def parseU32 (l : List Char) : Option Nat := rustParseNat 10 digitVal10 (2 ^ 32) l

/-- `str::parse::<u64>()`. -/
def parseU64 (l : List Char) : Option Nat := rustParseNat 10 digitVal10 (2 ^ 64) l

/-- `u16::from_str_radix(s, 16)`. -/
def parseU16Hex (l : List Char) : Option Nat := rustParseNat 16 digitVal16 (2 ^ 16) l

/-- `u32::from_str_radix(s, 16)`. -/
def parseU32Hex (l : List Char) : Option Nat := rustParseNat 16 digitVal16 (2 ^ 32) l

/-- Unbounded decimal accumulation: the "numeric" reading of a digit string
used to state the parser claims (no overflow cutoff). -/
def digitsValGo : Nat → List Char → Option Nat
  | acc, [] => some acc
  | acc, c :: cs =>
    match digitVal10 c with
    | some d => digitsValGo (acc * 10 + d) cs
    | none => none

/-- Unbounded version of Rust's unsigned-decimal syntax: an optional `+`
followed by a non-empty digit string, with its numeric value. -/
def parseNatAny (l : List Char) : Option Nat :=
  match l with
  | [] => none
  | c :: cs =>
    if c = '+' then
      match cs with
      | [] => none
      | _ => digitsValGo 0 cs
    else digitsValGo 0 (c :: cs)

/-- The specification's "looks like a socket address" test for a whitespace
field: contains `.`, `[`, `::`, or starts with `*`. -/
def looksLikeAddress (f : List Char) : Bool :=
  f.contains '.' || f.contains '[' || hasSub f "::".data || f.head? = some '*'

/-- The specification's "carries a numeric non-zero port after its last
colon" test for a whitespace field, with `*` rejected as the remote-address
wildcard. -/
def portCandidate (f : List Char) : Bool :=
  match rfindChar f ':' with
  | none => false
  | some i =>
    let ps := f.drop (i + 1)
    if ps = ['*'] then false
    else
      match parseNatAny ps with
      | some n => decide (n ≠ 0)
      | none => false

/-- Positional value of a digit string under a digit valuation, starting
from `acc`. -/
def foldVal (base : Nat) (digv : Char → Option Nat) (acc : Nat) (l : List Char) : Nat :=
  l.foldl (fun a c => a * base + ((digv c).getD 0)) acc

/-- Decimal value of a digit string (the mathematical reading used to state
the parser claims). -/
def digitsToNat (l : List Char) : Nat := foldVal 10 digitVal10 0 l

/-- Hexadecimal value of a hex-digit string. -/
def hexToNat (l : List Char) : Nat := foldVal 16 digitVal16 0 l

/-- Character of a decimal digit. -/
def decDigitChar (n : Nat) : Char := Char.ofNat ('0'.toNat + n)

/-- Fuelled decimal rendering loop behind `natToDecimal`. -/
def natToDecimalGo : Nat → Nat → List Char
  | 0, _ => []
  | fuel + 1, n =>
    if n < 10 then [decDigitChar n]
    else natToDecimalGo fuel (n / 10) ++ [decDigitChar (n % 10)]

/-- Decimal rendering of a natural number (Rust `format!` of an unsigned
integer). -/
def natToDecimal (n : Nat) : List Char := natToDecimalGo (n + 1) n

/-- Embedding of the `PortInfo` struct of `port_scanner.rs`: one open port.
`pid = 0` together with `process_name = "desconocido"` is the source's
representation of an unknown owner. -/
structure PortInfo where
  protocol : List Char
  port : Nat
  local_address : List Char
  pid : Nat
  process_name : List Char
deriving DecidableEq

/-- Deduplication key used by `scan_open_ports`: `(protocol, port)`. -/
def pkey (p : PortInfo) : List Char × Nat := (p.protocol, p.port)

/-- Lookup of a key in the reconciliation map (the map of `scan_open_ports`
is represented as its list of entries; a `HashMap` never holds two entries
with the same key, and every map built below keeps that invariant). -/
def findKey (m : List PortInfo) (k : List Char × Nat) : Option PortInfo :=
  m.find? (fun q => decide (pkey q = k))

/-- Phase-1 insertion of `scan_open_ports`:
`entry(key).and_modify(|e| if e.pid == 0 && p.pid > 0 { *e = p }).or_insert(p)`. -/
def upsertA (m : List PortInfo) (p : PortInfo) : List PortInfo :=
  match findKey m (pkey p) with
  | some _ => m.map (fun q => if pkey q = pkey p ∧ q.pid = 0 ∧ 0 < p.pid then p else q)
  | none => m ++ [p]

/-- Phase-2 insertion of `scan_open_ports`: `entry(key).or_insert(p)`. -/
def upsertB (m : List PortInfo) (p : PortInfo) : List PortInfo :=
  match findKey m (pkey p) with
  | some _ => m
  | none => m ++ [p]

/-- The reconciliation map of `scan_open_ports`: all records of source A
(the `ss` parser output) folded in with the owner-preferring rule, then all
records of source B (the `/proc/net` scan) folded in where their key is
absent. -/
def buildPortsMap (A B : List PortInfo) : List PortInfo :=
  B.foldl upsertB (A.foldl upsertA [])

/-- Byte-lexicographic `≤` on strings (Rust `String` ordering; for the ASCII
protocol names, byte order and char order coincide). -/
def lexLeB : List Char → List Char → Bool
  | [], _ => true
  | _ :: _, [] => false
  | a :: as, b :: bs =>
    if a.toNat < b.toNat then true
    else if b.toNat < a.toNat then false
    else lexLeB as bs

/-- Comparison used by `ports.sort_by_key(|p| (p.port, p.protocol))`:
lexicographic on the pair `(port, protocol)`. -/
def keyLeB (p q : PortInfo) : Bool :=
  if p.port < q.port then true
  else if q.port < p.port then false
  else lexLeB p.protocol q.protocol

/-- The sorting relation of the final `sort_by_key`. -/
def keyLe (p q : PortInfo) : Prop := keyLeB p q = true

instance : DecidableRel keyLe := fun p q => by unfold keyLe; infer_instance

/-- Strict version of the sort order: `keyLe` together with distinct keys.
On lists without duplicate keys, being sorted by `keyLe` is the same as
being sorted by `keyLt`, which pins the list down uniquely. -/
def keyLt (p q : PortInfo) : Prop := keyLe p q ∧ pkey p ≠ pkey q

/-- Pure core of `scan_open_ports`: reconcile the two parsed record sets and
return the map values sorted by `(port, protocol)`. -/
def scan_open_ports_merge (A B : List PortInfo) : List PortInfo :=
  (buildPortsMap A B).insertionSort keyLe

/-- Embedding of `total_pages`. -/
def total_pages (total_items page_size : Nat) : Nat :=
  if total_items = 0 ∨ page_size = 0 then 1
  else total_items / page_size + (if total_items % page_size > 0 then 1 else 0)

/-- Embedding of `get_page` (`ports[start..end].to_vec()` with
`end = min (start + page_size) ports.len()`). -/
def get_page (ports : List PortInfo) (page page_size : Nat) : List PortInfo :=
  if page_size = 0 then []
  else
    let start := page * page_size
    if start ≥ ports.length then []
    else ((ports.drop start).take (min (start + page_size) ports.length - start))

/-- Embedding of `clean_address`: strip IPv6 brackets and an `%interface`
suffix, map a bare `*` to `0.0.0.0`. -/
def clean_address (addr : List Char) : List Char :=
  let cleaned := ((addr.dropWhile (· = '[')).reverse.dropWhile (· = ']')).reverse
  match findChar cleaned '%' with
  | some pos => cleaned.take pos
  | none => if cleaned = ['*'] then "0.0.0.0".data else cleaned

/-- Per-field body of the loop of `extract_address_and_port`: accept a field
that looks like a socket address and carries a parseable non-zero `u16` port
after its last colon, rejecting `*` as a port. -/
def tryField (f : List Char) : Option (List Char × Nat) :=
  let isAddress := f.contains '.' || f.contains '[' || hasSub f "::".data ||
    f.head? = some '*'
  if isAddress then
    match rfindChar f ':' with
    | some colonPos =>
      let addrPart := f.take colonPos
      let portStr := f.drop (colonPos + 1)
      if portStr = ['*'] then none
      else
        match parseU16 portStr with
        | some port => if 0 < port then some (clean_address addrPart, port) else none
        | none => none
    | none => none
  else none

/-- Embedding of `extract_address_and_port`: first whitespace field of the
line accepted by `tryField`. -/
def extract_address_and_port (line : List Char) : Option (List Char × Nat) :=
  (splitWs line).findSome? tryField

/-- Embedding of `extract_process_info`: locate the `users:((` section,
extract the quoted process name and the decimal run after the first `pid=`
of the section. -/
def extract_process_info (line : List Char) : Option (Nat × List Char) := do
  let usersStart ← findSub line "users:((".data
  let sec := line.drop usersStart
  let nameMark ← findSub sec ("((".data ++ ['"'])
  let nameStart := nameMark + 3
  let nameOff ← findChar (sec.drop nameStart) '"'
  let nameEnd := nameOff + nameStart
  let processName := slice sec nameStart nameEnd
  let pidMark ← findSub sec "pid=".data
  let pidStart := pidMark + 4
  let pidEnd :=
    match findIdxP (fun c => ¬ isAsciiDigit c) (sec.drop pidStart) with
    | some i => i + pidStart
    | none => sec.length
  let pid ← parseU32 (slice sec pidStart pidEnd)
  pure (pid, processName)

/-- Embedding of `parse_single_ss_line`: trim, require an address and port,
and attach the (optional) process owner, defaulting to `(0, "desconocido")`. -/
def parse_single_ss_line (line : List Char) (protocol : List Char) : Option PortInfo :=
  let line := rustTrim line
  if line = [] then none
  else
    match extract_address_and_port line with
    | none => none
    | some (localAddress, port) =>
      let owner := (extract_process_info line).getD (0, "desconocido".data)
      some ⟨protocol, port, localAddress, owner.1, owner.2⟩

/-- Embedding of `parse_ss_output`. -/
def parse_ss_output (output : List Char) (protocol : List Char) : List PortInfo :=
  (linesOf output).filterMap (fun l => parse_single_ss_line l protocol)

/-- Embedding of `parse_hex_address`: `HEXADDR:HEXPORT` from a `/proc/net`
table, IPv4 rendered from the 32-bit value's bytes in reverse order, the two
well-known IPv6 constants special-cased, other IPv6 values abbreviated. -/
def parse_hex_address (hexAddr : List Char) : Option (List Char × Nat) :=
  match splitChar hexAddr ':' with
  | [addrHex, portHex] => do
    let port ← parseU16Hex portHex
    let address ←
      if addrHex.length = 8 then do
        let ip ← parseU32Hex addrHex
        pure (natToDecimal (ip % 256) ++ '.' ::
              natToDecimal (ip / 2 ^ 8 % 256) ++ '.' ::
              natToDecimal (ip / 2 ^ 16 % 256) ++ '.' ::
              natToDecimal (ip / 2 ^ 24 % 256))
      else if addrHex.length = 32 then
        if addrHex = "00000000000000000000000000000000".data then
          pure "[::]".data
        else if addrHex = "00000000000000000000000001000000".data then
          pure "[::1]".data
        else
          pure ('[' :: addrHex.take 4 ++ "...".data ++ addrHex.drop 28 ++ [']'])
      else none
    pure (address, port)
  | _ => none

/-- Big-endian byte decomposition of a 32-bit value, used to state the claim
that the IPv4 rendering prints the bytes in reverse order. -/
def bytesBE (n : Nat) : List Nat :=
  [n / 2 ^ 24 % 256, n / 2 ^ 16 % 256, n / 2 ^ 8 % 256, n % 256]

/-- Dotted-quad rendering of a byte list. -/
def dottedQuad (bs : List Nat) : List Char :=
  match bs with
  | [] => []
  | b :: rest => (rest.foldl (fun acc x => acc ++ '.' :: natToDecimal x) (natToDecimal b))

/-- Embedding of `parse_proc_net_line`.  The inode-owner map (a `HashMap` in
the source) is modelled as a partial function from inode to
`(pid, process_name)`. -/
def parse_proc_net_line (line : List Char) (protocol : List Char)
    (inodeToPid : Nat → Option (Nat × List Char)) : Option PortInfo :=
  let parts := splitWs line
  if parts.length < 10 then none
  else
    let state := parts.getD 3 []
    if protocol = "tcp".data ∧ state ≠ "0A".data then none
    else if protocol = "udp".data ∧ state ≠ "07".data then none
    else
      match parse_hex_address (parts.getD 1 []) with
      | none => none
      | some (localAddress, port) =>
        if port = 0 then none
        else
          let inode := (parseU64 (parts.getD 9 [])).getD 0
          let owner :=
            if 0 < inode then (inodeToPid inode).getD (0, "desconocido".data)
            else (0, "desconocido".data)
          some ⟨protocol, port, localAddress, owner.1, owner.2⟩

/-- Embedding of `parse_proc_net_file`: skip the header line, parse the
rest. -/
def parse_proc_net_file (content : List Char) (protocol : List Char)
    (inodeToPid : Nat → Option (Nat × List Char)) : List PortInfo :=
  ((linesOf content).drop 1).filterMap (fun l => parse_proc_net_line l protocol inodeToPid)

/-- External commands issued by the process terminator. -/
inductive KillCmd where
  | kill (pid : Nat)
  | pkexec (pid : Nat)
deriving DecidableEq

/-- Outcome of one external command: either the spawn itself failed with an
error message, or the command ran with the given exit status and stderr. -/
structure CmdOutcome where
  spawnErr : Option (List Char)
  success : Bool
  stderr : List Char

/-- Message returned by `kill_process(0)`. -/
def invalidTargetMsg : List Char :=
  "No se puede matar un proceso con PID desconocido (0)".data

/-- Embedding of `kill_process`.  The environment is an oracle giving the
outcome of each external command; the result carries the list of commands
actually issued, in order, so that "no external command is issued" is a
statable property. -/
def kill_process (exec : KillCmd → CmdOutcome) (pid : Nat) :
    Except (List Char) Unit × List KillCmd :=
  if pid = 0 then (Except.error invalidTargetMsg, [])
  else
    let o1 := exec (KillCmd.kill pid)
    match o1.spawnErr with
    | some e => (Except.error ("Error ejecutando kill: ".data ++ e), [KillCmd.kill pid])
    | none =>
      if o1.success then (Except.ok (), [KillCmd.kill pid])
      else
        let o2 := exec (KillCmd.pkexec pid)
        match o2.spawnErr with
        | some e =>
          (Except.error ("Error ejecutando pkexec: ".data ++ e),
           [KillCmd.kill pid, KillCmd.pkexec pid])
        | none =>
          if o2.success then (Except.ok (), [KillCmd.kill pid, KillCmd.pkexec pid])
          else
            (Except.error ("No se pudo matar el proceso ".data ++ natToDecimal pid ++
              ": ".data ++ o2.stderr),
             [KillCmd.kill pid, KillCmd.pkexec pid])

/-- Consecutive-duplicate removal (`Vec::dedup`). -/
def dedupConsec : List Nat → List Nat
  | [] => []
  | [a] => [a]
  | a :: b :: rest => if a = b then dedupConsec (b :: rest) else a :: dedupConsec (b :: rest)

/-- The unique, sorted list of known pids of a port list, as built by
`kill_all_port_processes` (`map`, `filter pid > 0`, `sort`, `dedup`). -/
def uniquePids (ports : List PortInfo) : List Nat :=
  dedupConsec (((ports.map PortInfo.pid).filter (fun pid => 0 < pid)).insertionSort (· ≤ ·))

/-- The kill loop of `kill_all_port_processes`: count successes and collect
the error messages, invoking `kill_process` once per pid, in order. -/
def killLoop (exec : KillCmd → CmdOutcome) : List Nat → Nat × List (List Char)
  | [] => (0, [])
  | pid :: rest =>
    let r := killLoop exec rest
    match (kill_process exec pid).1 with
    | Except.ok _ => (r.1 + 1, r.2)
    | Except.error e => (r.1, e :: r.2)

/-- Separator-joined concatenation (`Vec::join("; ")`). -/
def joinSep (sep : List Char) : List (List Char) → List Char
  | [] => []
  | [x] => x
  | x :: y :: rest => x ++ sep ++ joinSep sep (y :: rest)

/-- Message returned by `kill_all_port_processes` when no scanned port has a
known pid. -/
def noKnownPidMsg : List Char := "No hay procesos con PID conocido que cerrar".data

/-- Pure core of `kill_all_port_processes`, taking the scanned port list (the
result of `scan_open_ports`) and the command oracle explicitly. -/
def kill_all_port_processes (ports : List PortInfo) (exec : KillCmd → CmdOutcome) :
    Except (List Char) Nat :=
  if ports = [] then Except.ok 0
  else
    let pids := uniquePids ports
    if pids = [] then Except.error noKnownPidMsg
    else
      let r := killLoop exec pids
      if r.2 = [] then Except.ok r.1
      else if 0 < r.1 then Except.ok r.1
      else Except.error (joinSep "; ".data r.2)

/-- A record list holds at most one record per `(protocol, port)` key.  This
is the invariant of the reconciliation map and of the merged output. -/
def nodupKeys (m : List PortInfo) : Prop := m.Pairwise (fun a b => pkey a ≠ pkey b)

instance (m : List PortInfo) : Decidable (nodupKeys m) := by
  unfold nodupKeys; infer_instance

/-- Abstract single-key view of the phase-1 fold: how the map entry for key
`k` evolves while records are folded in with `upsertA`. -/
def stepA (k : List Char × Nat) (acc : Option PortInfo) (p : PortInfo) : Option PortInfo :=
  if pkey p = k then
    match acc with
    | none => some p
    | some e => if e.pid = 0 ∧ 0 < p.pid then some p else some e
  else acc

/-- The record that phase 1 of the reconciliation associates with key `k`
for input `A`. -/
def resolveA (A : List PortInfo) (k : List Char × Nat) : Option PortInfo :=
  A.foldl (stepA k) none

/-- The error message, if any, of one `kill_process` call under the oracle
`exec`. -/
def killErr (exec : KillCmd → CmdOutcome) (pid : Nat) : Option (List Char) :=
  match (kill_process exec pid).1 with
  | Except.ok _ => none
  | Except.error e => some e

/-- Occurrence of `pat` as a contiguous sub-sequence of `l` (the property
that `findSub` decides). -/
def occursIn (pat l : List Char) : Prop := ∃ i, pat <+: l.drop i

/-- The fixed `users:((` marker that opens an `ss` ownership section. -/
def usersMarker : List Char := "users:((".data

/-- The exact character shape of a well-formed `ss` ownership section
`users:(("name",pid=N,fd=K))`, as described by the specification. -/
def wellFormedUsers (name pidDs fdDs : List Char) : List Char :=
  usersMarker ++ '"' :: name ++ '"' :: ',' :: "pid=".data ++ pidDs ++
    ',' :: "fd=".data ++ fdDs ++ "))".data

/-! Lemmas about the reconciliation map. -/

theorem findKey_nil (k : List Char × Nat) : findKey [] k = none := rfl

theorem findKey_cons (a : PortInfo) (m : List PortInfo) (k : List Char × Nat) :
    findKey (a :: m) k = if pkey a = k then some a else findKey m k := by
  simp only [findKey, List.find?_cons]
  by_cases h : pkey a = k <;> simp [h]

theorem findKey_eq_none_iff {m : List PortInfo} {k : List Char × Nat} :
    findKey m k = none ↔ ∀ q ∈ m, pkey q ≠ k := by
  simp [findKey, List.find?_eq_none]

theorem findKey_some_mem {m : List PortInfo} {k : List Char × Nat} {e : PortInfo}
    (h : findKey m k = some e) : e ∈ m ∧ pkey e = k := by
  refine ⟨List.mem_of_find?_eq_some h, ?_⟩
  have := List.find?_some h
  simpa using this

theorem findKey_append (m₁ m₂ : List PortInfo) (k : List Char × Nat) :
    findKey (m₁ ++ m₂) k = (findKey m₁ k).or (findKey m₂ k) := by
  simp [findKey, List.find?_append]

theorem findKey_map_of_pkey_eq (f : PortInfo → PortInfo)
    (hf : ∀ q, pkey (f q) = pkey q) (m : List PortInfo) (k : List Char × Nat) :
    findKey (m.map f) k = (findKey m k).map f := by
  induction m with
  | nil => rfl
  | cons a m ih =>
    simp only [List.map_cons, findKey_cons, hf a]
    by_cases h : pkey a = k <;> simp [h, ih]

theorem upsertA_findKey (m : List PortInfo) (p : PortInfo) (k : List Char × Nat) :
    findKey (upsertA m p) k = stepA k (findKey m k) p := by
  unfold upsertA stepA
  rcases hm : findKey m (pkey p) with _ | e
  · rw [findKey_append]
    by_cases hk : pkey p = k
    · subst hk
      rw [hm]
      simp [findKey_cons]
    · have : findKey [p] k = none := by
        simp [findKey_cons, hk, findKey_nil]
      rw [this]
      rcases h : findKey m k with _ | e'
      · simp [hk]
      · simp [hk]
  · have hf : ∀ q, pkey (if pkey q = pkey p ∧ q.pid = 0 ∧ 0 < p.pid then p else q) = pkey q := by
      intro q
      by_cases h : pkey q = pkey p ∧ q.pid = 0 ∧ 0 < p.pid
      · simp [h, h.1]
      · simp [h]
    rw [findKey_map_of_pkey_eq _ hf]
    by_cases hk : pkey p = k
    · subst hk
      rw [hm]
      have he := findKey_some_mem hm
      by_cases hc : e.pid = 0 ∧ 0 < p.pid
      · simp [he.2, hc]
      · have : ¬ (pkey e = pkey p ∧ e.pid = 0 ∧ 0 < p.pid) := by
          intro hx
          exact hc hx.2
        simp [this, hc]
    · rcases h : findKey m k with _ | e'
      · simp [hk]
      · have he' := findKey_some_mem h
        have : ¬ (pkey e' = pkey p ∧ e'.pid = 0 ∧ 0 < p.pid) := by
          intro hx
          exact hk (he'.2 ▸ hx.1.symm ▸ rfl)
        simp [hk, this]

theorem upsertB_findKey (m : List PortInfo) (p : PortInfo) (k : List Char × Nat) :
    findKey (upsertB m p) k = (findKey m k).or (if pkey p = k then some p else none) := by
  unfold upsertB
  rcases hm : findKey m (pkey p) with _ | e
  · rw [findKey_append]
    congr 1
    simp [findKey_cons, findKey_nil]
  · by_cases hk : pkey p = k
    · subst hk
      rw [hm]
      rfl
    · rcases h : findKey m k with _ | e' <;> simp [hk]

theorem findKey_foldA (A : List PortInfo) (m₀ : List PortInfo) (k : List Char × Nat) :
    findKey (A.foldl upsertA m₀) k = A.foldl (stepA k) (findKey m₀ k) := by
  induction A generalizing m₀ with
  | nil => rfl
  | cons p A ih =>
    simp only [List.foldl_cons]
    rw [ih, upsertA_findKey]

theorem findKey_foldB (B : List PortInfo) (m : List PortInfo) (k : List Char × Nat) :
    findKey (B.foldl upsertB m) k = (findKey m k).or (findKey B k) := by
  induction B generalizing m with
  | nil => simp [findKey_nil]
  | cons b B ih =>
    simp only [List.foldl_cons]
    rw [ih, upsertB_findKey, Option.or_assoc]
    congr 1
    rw [findKey_cons]
    by_cases h : pkey b = k <;> simp [h]

theorem findKey_buildPortsMap (A B : List PortInfo) (k : List Char × Nat) :
    findKey (buildPortsMap A B) k = (resolveA A k).or (findKey B k) := by
  unfold buildPortsMap resolveA
  rw [findKey_foldB, findKey_foldA, findKey_nil]

theorem stepA_hit_none {p : PortInfo} {k : List Char × Nat} (hk : pkey p = k) :
    stepA k none p = some p := by
  unfold stepA
  rw [if_pos hk]

theorem stepA_hit_some {p e : PortInfo} {k : List Char × Nat} (hk : pkey p = k) :
    stepA k (some e) p = if e.pid = 0 ∧ 0 < p.pid then some p else some e := by
  unfold stepA
  rw [if_pos hk]

theorem stepA_skip {p : PortInfo} {k : List Char × Nat} (hk : pkey p ≠ k)
    (acc : Option PortInfo) : stepA k acc p = acc := by
  unfold stepA
  rw [if_neg hk]

theorem stepA_isSome {p : PortInfo} {k : List Char × Nat} {acc : Option PortInfo}
    (h : acc.isSome) : (stepA k acc p).isSome := by
  rcases acc with _ | e
  · cases h
  · by_cases hk : pkey p = k
    · rw [stepA_hit_some hk]
      by_cases hc : e.pid = 0 ∧ 0 < p.pid <;> simp [hc]
    · rw [stepA_skip hk]
      rfl

theorem nodupKeys_upsertA {m : List PortInfo} (h : nodupKeys m) (p : PortInfo) :
    nodupKeys (upsertA m p) := by
  unfold upsertA
  rcases hm : findKey m (pkey p) with _ | e
  · unfold nodupKeys
    rw [List.pairwise_append]
    refine ⟨h, List.pairwise_singleton _ _, ?_⟩
    intro a ha b hb
    simp only [List.mem_singleton] at hb
    subst hb
    exact findKey_eq_none_iff.mp hm a ha
  · have hf : ∀ q, pkey (if pkey q = pkey p ∧ q.pid = 0 ∧ 0 < p.pid then p else q) = pkey q := by
      intro q
      by_cases hq : pkey q = pkey p ∧ q.pid = 0 ∧ 0 < p.pid
      · simp [hq, hq.1]
      · simp [hq]
    unfold nodupKeys
    rw [List.pairwise_map]
    refine h.imp ?_
    intro a b hab
    rw [hf a, hf b]
    exact hab

theorem nodupKeys_upsertB {m : List PortInfo} (h : nodupKeys m) (p : PortInfo) :
    nodupKeys (upsertB m p) := by
  unfold upsertB
  rcases hm : findKey m (pkey p) with _ | e
  · unfold nodupKeys
    rw [List.pairwise_append]
    refine ⟨h, List.pairwise_singleton _ _, ?_⟩
    intro a ha b hb
    simp only [List.mem_singleton] at hb
    subst hb
    exact findKey_eq_none_iff.mp hm a ha
  · exact h

theorem nodupKeys_foldA {A : List PortInfo} {m₀ : List PortInfo} (h : nodupKeys m₀) :
    nodupKeys (A.foldl upsertA m₀) := by
  induction A generalizing m₀ with
  | nil => exact h
  | cons p A ih => exact ih (nodupKeys_upsertA h p)

theorem nodupKeys_foldB {B : List PortInfo} {m : List PortInfo} (h : nodupKeys m) :
    nodupKeys (B.foldl upsertB m) := by
  induction B generalizing m with
  | nil => exact h
  | cons p B ih => exact ih (nodupKeys_upsertB h p)

theorem nodupKeys_buildPortsMap (A B : List PortInfo) : nodupKeys (buildPortsMap A B) :=
  nodupKeys_foldB (nodupKeys_foldA List.Pairwise.nil)

theorem mem_iff_findKey {m : List PortInfo} (h : nodupKeys m) (q : PortInfo) :
    q ∈ m ↔ findKey m (pkey q) = some q := by
  constructor
  · intro hq
    induction m with
    | nil => cases hq
    | cons a m ih =>
      rw [findKey_cons]
      rcases List.mem_cons.mp hq with rfl | hq'
      · simp
      · have key_ne : pkey a ≠ pkey q := (List.pairwise_cons.mp h).1 q hq'
        rw [if_neg key_ne]
        exact ih (List.pairwise_cons.mp h).2 hq'
  · intro hq
    exact (findKey_some_mem hq).1

theorem foldl_stepA_acc_or_new {A : List PortInfo} {k : List Char × Nat} {q : PortInfo} :
    ∀ (acc : Option PortInfo), A.foldl (stepA k) acc = some q →
      acc = some q ∨ (q ∈ A ∧ pkey q = k) := by
  induction A with
  | nil =>
    intro acc hacc
    exact Or.inl hacc
  | cons p A ih =>
    intro acc hacc
    simp only [List.foldl_cons] at hacc
    rcases ih (stepA k acc p) hacc with hstep | hq
    · by_cases hk : pkey p = k
      · rcases acc with _ | e
        · rw [stepA_hit_none hk] at hstep
          cases hstep
          exact Or.inr ⟨List.mem_cons_self _ _, hk⟩
        · rw [stepA_hit_some hk] at hstep
          by_cases hc : e.pid = 0 ∧ 0 < p.pid
          · rw [if_pos hc] at hstep
            cases hstep
            exact Or.inr ⟨List.mem_cons_self _ _, hk⟩
          · rw [if_neg hc] at hstep
            exact Or.inl hstep
      · rw [stepA_skip hk] at hstep
        exact Or.inl hstep
    · exact Or.inr ⟨List.mem_cons_of_mem p hq.1, hq.2⟩

theorem resolveA_mem {A : List PortInfo} {k : List Char × Nat} {q : PortInfo}
    (h : resolveA A k = some q) : q ∈ A ∧ pkey q = k := by
  rcases foldl_stepA_acc_or_new none h with hq | hq
  · cases hq
  · exact hq

theorem foldl_stepA_no_key {A : List PortInfo} {k : List Char × Nat}
    (h : ∀ a ∈ A, pkey a ≠ k) (acc : Option PortInfo) : A.foldl (stepA k) acc = acc := by
  induction A generalizing acc with
  | nil => rfl
  | cons p A ih =>
    simp only [List.foldl_cons]
    rw [stepA_skip (h p (List.mem_cons_self p A)) acc]
    exact ih (fun a ha => h a (List.mem_cons_of_mem p ha)) acc

theorem foldl_stepA_isSome {A : List PortInfo} {k : List Char × Nat} :
    ∀ (acc : Option PortInfo), acc.isSome ∨ (∃ a ∈ A, pkey a = k) →
      (A.foldl (stepA k) acc).isSome := by
  induction A with
  | nil =>
    intro acc hacc
    rcases hacc with h | ⟨a, ha, _⟩
    · exact h
    · cases ha
  | cons p A ih =>
    intro acc hacc
    simp only [List.foldl_cons]
    rcases hacc with h | ⟨a, ha, hk⟩
    · exact ih _ (Or.inl (stepA_isSome h))
    · rcases List.mem_cons.mp ha with rfl | ha'
      · refine ih _ (Or.inl ?_)
        rcases acc with _ | e
        · rw [stepA_hit_none hk]
          rfl
        · exact stepA_isSome rfl
      · exact ih _ (Or.inr ⟨a, ha', hk⟩)

theorem resolveA_none_iff {A : List PortInfo} {k : List Char × Nat} :
    resolveA A k = none ↔ ∀ a ∈ A, pkey a ≠ k := by
  constructor
  · intro h a ha hk
    have := foldl_stepA_isSome (A := A) (k := k) none (Or.inr ⟨a, ha, hk⟩)
    rw [show A.foldl (stepA k) none = resolveA A k from rfl, h] at this
    cases this
  · intro h
    exact foldl_stepA_no_key h none

theorem resolveA_isSome_of_mem {A : List PortInfo} {a : PortInfo} (ha : a ∈ A) :
    (resolveA A (pkey a)).isSome :=
  foldl_stepA_isSome none (Or.inr ⟨a, ha, rfl⟩)

theorem resolveA_unique {A : List PortInfo} (h : nodupKeys A) {a : PortInfo}
    (ha : a ∈ A) : resolveA A (pkey a) = some a := by
  induction A with
  | nil => cases ha
  | cons p A ih =>
    rcases List.mem_cons.mp ha with rfl | ha'
    · have hrest : ∀ b ∈ A, pkey b ≠ pkey a :=
        fun b hb => Ne.symm ((List.pairwise_cons.mp h).1 b hb)
      unfold resolveA
      simp only [List.foldl_cons]
      rw [stepA_hit_none rfl]
      exact foldl_stepA_no_key hrest (some a)
    · have hp : pkey p ≠ pkey a := (List.pairwise_cons.mp h).1 a ha'
      unfold resolveA
      simp only [List.foldl_cons]
      rw [stepA_skip hp]
      exact ih (List.pairwise_cons.mp h).2 ha'

theorem foldl_stepA_known {A : List PortInfo} {k : List Char × Nat} :
    ∀ (acc : Option PortInfo),
      ((∃ a ∈ A, pkey a = k ∧ 0 < a.pid) ∨ (∃ e, acc = some e ∧ 0 < e.pid)) →
      ∃ r, A.foldl (stepA k) acc = some r ∧ 0 < r.pid := by
  induction A with
  | nil =>
    intro acc hacc
    rcases hacc with ⟨a, ha, _⟩ | ⟨e, he, hpid⟩
    · cases ha
    · exact ⟨e, he, hpid⟩
  | cons p A ih =>
    intro acc hacc
    simp only [List.foldl_cons]
    rcases hacc with ⟨a, ha, hk, hpid⟩ | ⟨e, he, hpid⟩
    · rcases List.mem_cons.mp ha with rfl | ha'
      · refine ih _ (Or.inr ?_)
        rcases acc with _ | e
        · rw [stepA_hit_none hk]
          exact ⟨a, rfl, hpid⟩
        · rw [stepA_hit_some hk]
          by_cases hc : e.pid = 0 ∧ 0 < a.pid
          · rw [if_pos hc]
            exact ⟨a, rfl, hpid⟩
          · rw [if_neg hc]
            refine ⟨e, rfl, ?_⟩
            rcases Nat.eq_zero_or_pos e.pid with hz | hpos
            · exact absurd ⟨hz, hpid⟩ hc
            · exact hpos
      · exact ih _ (Or.inl ⟨a, ha', hk, hpid⟩)
    · subst he
      refine ih _ (Or.inr ?_)
      by_cases hk : pkey p = k
      · rw [stepA_hit_some hk]
        have hc : ¬ (e.pid = 0 ∧ 0 < p.pid) := fun hx => by omega
        rw [if_neg hc]
        exact ⟨e, rfl, hpid⟩
      · rw [stepA_skip hk]
        exact ⟨e, rfl, hpid⟩

theorem resolveA_known {A : List PortInfo} {k : List Char × Nat}
    (h : ∃ a ∈ A, pkey a = k ∧ 0 < a.pid) :
    ∃ r, resolveA A k = some r ∧ 0 < r.pid :=
  foldl_stepA_known none (Or.inl h)

/-! Lemmas about the final sort. -/

theorem char_eq_of_toNat_eq {a b : Char} (h : a.toNat = b.toNat) : a = b :=
  Char.eq_of_val_eq (UInt32.ext h)

theorem lexLeB_cons {x y : Char} {as bs : List Char} :
    lexLeB (x :: as) (y :: bs) =
      if x.toNat < y.toNat then true
      else if y.toNat < x.toNat then false
      else lexLeB as bs := rfl

theorem lexLeB_cons_iff {x y : Char} {as bs : List Char} :
    lexLeB (x :: as) (y :: bs) = true ↔
      (x.toNat < y.toNat ∨ (x.toNat = y.toNat ∧ lexLeB as bs = true)) := by
  rw [lexLeB_cons]
  split_ifs with h1 h2
  · simpa using Or.inl h1
  · constructor
    · intro h
      cases h
    · intro h
      rcases h with h | ⟨h, _⟩ <;> omega
  · have hxy : x.toNat = y.toNat := by omega
    simp [hxy]

theorem lexLeB_total : ∀ (a b : List Char), lexLeB a b = true ∨ lexLeB b a = true
  | [], _ => Or.inl rfl
  | _ :: _, [] => Or.inr rfl
  | x :: as, y :: bs => by
    rcases Nat.lt_trichotomy x.toNat y.toNat with h | h | h
    · exact Or.inl (lexLeB_cons_iff.mpr (Or.inl h))
    · rcases lexLeB_total as bs with hr | hr
      · exact Or.inl (lexLeB_cons_iff.mpr (Or.inr ⟨h, hr⟩))
      · exact Or.inr (lexLeB_cons_iff.mpr (Or.inr ⟨h.symm, hr⟩))
    · exact Or.inr (lexLeB_cons_iff.mpr (Or.inl h))

theorem lexLeB_trans : ∀ {a b c : List Char},
    lexLeB a b = true → lexLeB b c = true → lexLeB a c = true
  | [], _, _, _, _ => rfl
  | x :: as, [], c, hab, _ => by cases hab
  | x :: as, y :: bs, [], _, hbc => by cases hbc
  | x :: as, y :: bs, z :: cs, hab, hbc => by
    rcases lexLeB_cons_iff.mp hab with h1 | ⟨h1, h1'⟩ <;>
      rcases lexLeB_cons_iff.mp hbc with h2 | ⟨h2, h2'⟩
    · exact lexLeB_cons_iff.mpr (Or.inl (Nat.lt_trans h1 h2))
    · exact lexLeB_cons_iff.mpr (Or.inl (h2 ▸ h1))
    · exact lexLeB_cons_iff.mpr (Or.inl (h1 ▸ h2))
    · exact lexLeB_cons_iff.mpr (Or.inr ⟨h1.trans h2, lexLeB_trans h1' h2'⟩)

theorem lexLeB_antisymm : ∀ {a b : List Char},
    lexLeB a b = true → lexLeB b a = true → a = b
  | [], [], _, _ => rfl
  | [], _ :: _, _, hba => by cases hba
  | _ :: _, [], hab, _ => by cases hab
  | x :: as, y :: bs, hab, hba => by
    rcases lexLeB_cons_iff.mp hab with h1 | ⟨h1, h1'⟩ <;>
      rcases lexLeB_cons_iff.mp hba with h2 | ⟨h2, h2'⟩
    · omega
    · omega
    · omega
    · rw [char_eq_of_toNat_eq h1, lexLeB_antisymm h1' h2']

theorem keyLe_iff {p q : PortInfo} :
    keyLe p q ↔ p.port < q.port ∨ (p.port = q.port ∧ lexLeB p.protocol q.protocol = true) := by
  unfold keyLe keyLeB
  split_ifs with h1 h2
  · simpa using Or.inl h1
  · constructor
    · intro h
      cases h
    · intro h
      rcases h with h | ⟨h, _⟩ <;> omega
  · have hxy : p.port = q.port := by omega
    simp [hxy]

theorem keyLe_total (p q : PortInfo) : keyLe p q ∨ keyLe q p := by
  rcases Nat.lt_trichotomy p.port q.port with h | h | h
  · exact Or.inl (keyLe_iff.mpr (Or.inl h))
  · rcases lexLeB_total p.protocol q.protocol with hr | hr
    · exact Or.inl (keyLe_iff.mpr (Or.inr ⟨h, hr⟩))
    · exact Or.inr (keyLe_iff.mpr (Or.inr ⟨h.symm, hr⟩))
  · exact Or.inr (keyLe_iff.mpr (Or.inl h))

theorem keyLe_trans {p q r : PortInfo} (h1 : keyLe p q) (h2 : keyLe q r) : keyLe p r := by
  rcases keyLe_iff.mp h1 with ha | ⟨ha, ha'⟩ <;> rcases keyLe_iff.mp h2 with hb | ⟨hb, hb'⟩
  · exact keyLe_iff.mpr (Or.inl (Nat.lt_trans ha hb))
  · exact keyLe_iff.mpr (Or.inl (hb ▸ ha))
  · exact keyLe_iff.mpr (Or.inl (ha ▸ hb))
  · exact keyLe_iff.mpr (Or.inr ⟨ha.trans hb, lexLeB_trans ha' hb'⟩)

theorem keyLe_antisymm_pkey {p q : PortInfo} (h1 : keyLe p q) (h2 : keyLe q p) :
    pkey p = pkey q := by
  rcases keyLe_iff.mp h1 with ha | ⟨ha, ha'⟩ <;> rcases keyLe_iff.mp h2 with hb | ⟨hb, hb'⟩
  · omega
  · omega
  · omega
  · unfold pkey
    rw [lexLeB_antisymm ha' hb', ha]

theorem pairwise_keyLt_of_sorted_nodup {l : List PortInfo}
    (hs : List.Sorted keyLe l) (hn : nodupKeys l) : l.Pairwise keyLt :=
  (List.Pairwise.and hs hn).imp (fun hab => ⟨hab.1, hab.2⟩)

theorem eq_of_perm_of_key_sorted {l₁ l₂ : List PortInfo} (hp : l₁.Perm l₂)
    (h1 : l₁.Pairwise keyLt) (h2 : l₂.Pairwise keyLt) : l₁ = l₂ := by
  haveI : IsAntisymm PortInfo keyLt :=
    ⟨fun a b hab hba => absurd (keyLe_antisymm_pkey hab.1 hba.1) hab.2⟩
  exact List.eq_of_perm_of_sorted hp h1 h2

theorem scan_merge_perm (A B : List PortInfo) :
    (scan_open_ports_merge A B).Perm (buildPortsMap A B) :=
  List.perm_insertionSort keyLe (buildPortsMap A B)

theorem mem_scan_merge_iff {A B : List PortInfo} {q : PortInfo} :
    q ∈ scan_open_ports_merge A B ↔ q ∈ buildPortsMap A B :=
  (scan_merge_perm A B).mem_iff

theorem scan_merge_sorted (A B : List PortInfo) :
    List.Sorted keyLe (scan_open_ports_merge A B) := by
  haveI : IsTotal PortInfo keyLe := ⟨keyLe_total⟩
  haveI : IsTrans PortInfo keyLe := ⟨fun _ _ _ => keyLe_trans⟩
  exact List.sorted_insertionSort keyLe (buildPortsMap A B)

theorem pkey_ne_symm : ∀ {a b : PortInfo}, pkey a ≠ pkey b → pkey b ≠ pkey a :=
  fun h => Ne.symm h

theorem nodupKeys_scan_merge (A B : List PortInfo) :
    nodupKeys (scan_open_ports_merge A B) := by
  unfold nodupKeys
  exact ((scan_merge_perm A B).pairwise_iff pkey_ne_symm).mpr
    (nodupKeys_buildPortsMap A B)

theorem nodup_of_nodupKeys {l : List PortInfo} (h : nodupKeys l) : l.Nodup :=
  h.imp (fun hab => fun he => hab (he ▸ rfl))

theorem findKey_congr_of_content {A A' B B' : List PortInfo}
    (hA : nodupKeys A) (hB : nodupKeys B) (pA : A.Perm A') (pB : B.Perm B')
    (k : List Char × Nat) :
    findKey (buildPortsMap A B) k = findKey (buildPortsMap A' B') k := by
  have hA' : nodupKeys A' := (pA.pairwise_iff pkey_ne_symm).mp hA
  have hB' : nodupKeys B' := (pB.pairwise_iff pkey_ne_symm).mp hB
  rw [findKey_buildPortsMap, findKey_buildPortsMap]
  have hres : resolveA A k = resolveA A' k := by
    rcases h : resolveA A k with _ | q
    · rw [eq_comm, resolveA_none_iff]
      intro a ha
      exact resolveA_none_iff.mp h a (pA.mem_iff.mpr ha)
    · have hm := resolveA_mem h
      rw [← hm.2]
      rw [← hm.2] at h
      exact (resolveA_unique hA' (pA.mem_iff.mp hm.1)).symm
  have hfb : findKey B k = findKey B' k := by
    rcases h : findKey B k with _ | q
    · rw [eq_comm, findKey_eq_none_iff]
      intro a ha
      exact findKey_eq_none_iff.mp h a (pB.mem_iff.mpr ha)
    · have hm := findKey_some_mem h
      rw [← hm.2]
      exact ((mem_iff_findKey hB' q).mp (pB.mem_iff.mp hm.1)).symm
  rw [hres, hfb]

theorem mem_buildPortsMap_iff {A B : List PortInfo} {q : PortInfo} :
    q ∈ buildPortsMap A B ↔ ((resolveA A (pkey q)).or (findKey B (pkey q))) = some q := by
  rw [mem_iff_findKey (nodupKeys_buildPortsMap A B) q, findKey_buildPortsMap]

theorem mem_buildPortsMap_source {A B : List PortInfo} {q : PortInfo}
    (h : q ∈ buildPortsMap A B) : q ∈ A ∨ q ∈ B := by
  have := mem_buildPortsMap_iff.mp h
  rcases ho : resolveA A (pkey q) with _ | r
  · rw [ho] at this
    simp only [Option.or] at this
    exact Or.inr (findKey_some_mem this).1
  · rw [ho] at this
    simp only [Option.or] at this
    cases this
    exact Or.inl (resolveA_mem ho).1

theorem foldl_upsertA_fresh {A : List PortInfo} (h : nodupKeys A) :
    ∀ (m₀ : List PortInfo), (∀ a ∈ A, findKey m₀ (pkey a) = none) →
      A.foldl upsertA m₀ = m₀ ++ A := by
  induction A with
  | nil =>
    intro m₀ _
    simp
  | cons p A ih =>
    intro m₀ hm
    simp only [List.foldl_cons]
    have hp : findKey m₀ (pkey p) = none := hm p (List.mem_cons_self p A)
    have hstep : upsertA m₀ p = m₀ ++ [p] := by
      unfold upsertA
      rw [hp]
    rw [hstep]
    have hA : nodupKeys A := (List.pairwise_cons.mp h).2
    have harg : ∀ a ∈ A, findKey (m₀ ++ [p]) (pkey a) = none := by
      intro a ha
      rw [findKey_append]
      have h1 : findKey m₀ (pkey a) = none := hm a (List.mem_cons_of_mem p ha)
      have h2 : findKey [p] (pkey a) = none := by
        rw [findKey_cons, findKey_nil, if_neg ((List.pairwise_cons.mp h).1 a ha)]
      rw [h1, h2]
      rfl
    rw [ih hA (m₀ ++ [p]) harg, List.append_assoc]
    rfl

theorem buildPortsMap_self_nil {A : List PortInfo} (h : nodupKeys A) :
    buildPortsMap A [] = A := by
  unfold buildPortsMap
  simp only [List.foldl_nil]
  have := foldl_upsertA_fresh h [] (fun a _ => findKey_nil (pkey a))
  simpa using this

theorem foldl_upsertB_present {B : List PortInfo} {m : List PortInfo}
    (h : ∀ b ∈ B, (findKey m (pkey b)).isSome) : B.foldl upsertB m = m := by
  induction B with
  | nil => rfl
  | cons b B ih =>
    simp only [List.foldl_cons]
    have hb := h b (List.mem_cons_self b B)
    have hstep : upsertB m b = m := by
      unfold upsertB
      rcases hm : findKey m (pkey b) with _ | e
      · rw [hm] at hb
        cases hb
      · rfl
    rw [hstep]
    exact ih (fun b' hb' => h b' (List.mem_cons_of_mem b hb'))

theorem buildPortsMap_self (A : List PortInfo) :
    buildPortsMap A A = buildPortsMap A [] := by
  unfold buildPortsMap
  simp only [List.foldl_nil]
  refine foldl_upsertB_present ?_
  intro b hb
  rw [findKey_foldA, findKey_nil]
  exact foldl_stepA_isSome none (Or.inr ⟨b, hb, rfl⟩)

/-! Lemmas about the parsers needed for the merged-list invariants. -/

theorem tryField_pos {f : List Char} {ap : List Char × Nat}
    (h : tryField f = some ap) : 0 < ap.2 := by
  unfold tryField at h
  simp only [] at h
  repeat' split at h
  all_goals try simp_all
  subst h
  simpa using ‹0 < _›

theorem parse_single_ss_line_port_pos {line proto : List Char} {r : PortInfo}
    (h : parse_single_ss_line line proto = some r) : 0 < r.port := by
  unfold parse_single_ss_line at h
  simp only [] at h
  split at h
  · cases h
  · split at h
    · cases h
    · rename_i ap heq
      cases h
      rcases List.exists_of_findSome?_eq_some heq with ⟨f, _, hf⟩
      exact tryField_pos hf

theorem parse_proc_net_line_port_pos {line proto : List Char}
    {f : Nat → Option (Nat × List Char)} {r : PortInfo}
    (h : parse_proc_net_line line proto f = some r) : 0 < r.port := by
  unfold parse_proc_net_line at h
  simp only [] at h
  repeat' split at h
  all_goals try simp_all
  all_goals (subst h; simpa using Nat.pos_of_ne_zero ‹_›)

/-! Claim C1. -/

/-- C1, counterexample.  The claim says the merged record's owner is known
whenever *either* contributing source supplied a known owner for its key.
Source B (the kernel-interface source) supplies a known owner (pid 42) for
key `(tcp, 80)`, source A an unknown one, yet the merged list keeps A's
record with pid 0: phase 2 only fills absent keys and never upgrades. -/
theorem scan_merge_owner_claim_cex :
    pkey (⟨"tcp".data, 80, "0.0.0.0".data, 0, "desconocido".data⟩ : PortInfo) =
      pkey ⟨"tcp".data, 80, "0.0.0.0".data, 42, "node".data⟩ ∧
    0 < (⟨"tcp".data, 80, "0.0.0.0".data, 42, "node".data⟩ : PortInfo).pid ∧
    (scan_open_ports_merge [⟨"tcp".data, 80, "0.0.0.0".data, 0, "desconocido".data⟩]
        [⟨"tcp".data, 80, "0.0.0.0".data, 42, "node".data⟩]).map PortInfo.pid = [0] := by
  refine ⟨rfl, Nat.succ_pos 41, ?_⟩
  decide

/-- C1 (amended).  For record sets A (command-output source) and B
(kernel-interface source): every record of the merged list has `port > 0`
whenever all input records do, which both parsers guarantee; at most one
record survives per `(protocol, port)` key; and a merged record's owner is
known whenever source A supplied a known owner for its key (a known owner
supplied only by B is not propagated onto an A record: B fills absent keys
only). -/
theorem scan_merge_invariants_amended :
    (∀ A B : List PortInfo, nodupKeys (scan_open_ports_merge A B)) ∧
    (∀ A B : List PortInfo, ∀ r ∈ scan_open_ports_merge A B, r ∈ A ∨ r ∈ B) ∧
    (∀ A B : List PortInfo, (∀ a ∈ A, 0 < a.port) → (∀ b ∈ B, 0 < b.port) →
      ∀ r ∈ scan_open_ports_merge A B, 0 < r.port) ∧
    (∀ (line proto : List Char) (r : PortInfo),
      parse_single_ss_line line proto = some r → 0 < r.port) ∧
    (∀ (line proto : List Char) (f : Nat → Option (Nat × List Char)) (r : PortInfo),
      parse_proc_net_line line proto f = some r → 0 < r.port) ∧
    (∀ (A B : List PortInfo) (k : List Char × Nat) (r : PortInfo),
      (∃ a ∈ A, pkey a = k ∧ 0 < a.pid) →
      r ∈ scan_open_ports_merge A B → pkey r = k → 0 < r.pid) := by
  refine ⟨nodupKeys_scan_merge, ?_, ?_, ?_, ?_, ?_⟩
  · intro A B r hr
    exact mem_buildPortsMap_source (mem_scan_merge_iff.mp hr)
  · intro A B hA hB r hr
    rcases mem_buildPortsMap_source (mem_scan_merge_iff.mp hr) with h | h
    · exact hA r h
    · exact hB r h
  · intro line proto r h
    exact parse_single_ss_line_port_pos h
  · intro line proto f r h
    exact parse_proc_net_line_port_pos h
  · intro A B k r hknown hr hk
    have hmem : r ∈ buildPortsMap A B := mem_scan_merge_iff.mp hr
    have hfind := (mem_iff_findKey (nodupKeys_buildPortsMap A B) r).mp hmem
    rw [findKey_buildPortsMap, hk] at hfind
    rcases resolveA_known hknown with ⟨r', hr', hpid⟩
    rw [hr'] at hfind
    simp only [Option.or] at hfind
    cases hfind
    exact hpid

/-- C1 witness: the amended invariants at a concrete merge. -/
theorem scan_merge_invariants_amended_witness :
    (∀ r ∈ scan_open_ports_merge
        [⟨"tcp".data, 8080, "0.0.0.0".data, 7, "node".data⟩]
        [⟨"tcp".data, 8080, "0.0.0.0".data, 0, "desconocido".data⟩], 0 < r.port) ∧
    (∀ r ∈ scan_open_ports_merge
        [⟨"tcp".data, 8080, "0.0.0.0".data, 7, "node".data⟩]
        [⟨"tcp".data, 8080, "0.0.0.0".data, 0, "desconocido".data⟩],
      pkey r = ("tcp".data, 8080) → 0 < r.pid) := by
  constructor
  · exact scan_merge_invariants_amended.2.2.1
      [⟨"tcp".data, 8080, "0.0.0.0".data, 7, "node".data⟩]
      [⟨"tcp".data, 8080, "0.0.0.0".data, 0, "desconocido".data⟩]
      (by decide) (by decide)
  · intro r hr hk
    exact scan_merge_invariants_amended.2.2.2.2.2
      [⟨"tcp".data, 8080, "0.0.0.0".data, 7, "node".data⟩]
      [⟨"tcp".data, 8080, "0.0.0.0".data, 0, "desconocido".data⟩]
      ("tcp".data, 8080) r
      ⟨⟨"tcp".data, 8080, "0.0.0.0".data, 7, "node".data⟩, by decide, by decide, by decide⟩
      hr hk

/-! Claim C3. -/

/-- C3.  Reconciliation is idempotent: merging a set with itself is merging
it with an empty B, and on a canonical set (no duplicate keys, sorted) both
return the set itself; for a key in both sources with a known A owner and
unknown B owner, A's record wins; a map entry is replaced during phase 1
exactly when the incoming record has a known owner and the existing one does
not; phase 2 inserts only where the key is absent. -/
theorem scan_merge_reconciliation_props :
    (∀ A : List PortInfo, scan_open_ports_merge A A = scan_open_ports_merge A []) ∧
    (∀ A : List PortInfo, nodupKeys A → List.Sorted keyLe A →
      scan_open_ports_merge A A = A ∧ scan_open_ports_merge A [] = A) ∧
    (∀ A B : List PortInfo, nodupKeys A → ∀ a ∈ A, ∀ b ∈ B,
      pkey b = pkey a → 0 < a.pid → b.pid = 0 →
      a ∈ scan_open_ports_merge A B ∧
        ∀ r ∈ scan_open_ports_merge A B, pkey r = pkey a → r = a) ∧
    (∀ (m : List PortInfo) (p e : PortInfo), findKey m (pkey p) = some e →
      findKey (upsertA m p) (pkey p) =
        (if e.pid = 0 ∧ 0 < p.pid then some p else some e)) ∧
    (∀ (m : List PortInfo) (p : PortInfo),
      (findKey m (pkey p)).isSome → upsertB m p = m) ∧
    (∀ (m : List PortInfo) (p : PortInfo),
      findKey m (pkey p) = none → upsertB m p = m ++ [p]) := by
  refine ⟨?_, ?_, ?_, ?_, ?_, ?_⟩
  · intro A
    unfold scan_open_ports_merge
    rw [buildPortsMap_self]
  · intro A hA hs
    have h0 : scan_open_ports_merge A [] = A := by
      unfold scan_open_ports_merge
      rw [buildPortsMap_self_nil hA]
      exact hs.insertionSort_eq
    constructor
    · unfold scan_open_ports_merge
      rw [buildPortsMap_self, ← scan_open_ports_merge, h0]
    · exact h0
  · intro A B hA a ha b hb hkey hapid hbpid
    have hfind : findKey (buildPortsMap A B) (pkey a) = some a := by
      rw [findKey_buildPortsMap, resolveA_unique hA ha]
      rfl
    have hmem : a ∈ buildPortsMap A B :=
      (mem_iff_findKey (nodupKeys_buildPortsMap A B) a).mpr hfind
    refine ⟨mem_scan_merge_iff.mpr hmem, ?_⟩
    intro r hr hk
    have hr' := (mem_iff_findKey (nodupKeys_buildPortsMap A B) r).mp
      (mem_scan_merge_iff.mp hr)
    rw [hk] at hr'
    rw [hfind] at hr'
    cases hr'
    rfl
  · intro m p e he
    rw [upsertA_findKey, he, stepA_hit_some rfl]
  · intro m p hsome
    unfold upsertB
    rcases hm : findKey m (pkey p) with _ | e
    · rw [hm] at hsome
      cases hsome
    · rfl
  · intro m p hnone
    unfold upsertB
    rw [hnone]

/-- C3 witness: the reconciliation properties at concrete inputs. -/
theorem scan_merge_reconciliation_props_witness :
    (scan_open_ports_merge
        [⟨"udp".data, 53, "0.0.0.0".data, 0, "desconocido".data⟩,
         ⟨"tcp".data, 80, "0.0.0.0".data, 5, "nginx".data⟩]
        [⟨"udp".data, 53, "0.0.0.0".data, 0, "desconocido".data⟩,
         ⟨"tcp".data, 80, "0.0.0.0".data, 5, "nginx".data⟩] =
      [⟨"udp".data, 53, "0.0.0.0".data, 0, "desconocido".data⟩,
       ⟨"tcp".data, 80, "0.0.0.0".data, 5, "nginx".data⟩]) ∧
    (⟨"tcp".data, 80, "0.0.0.0".data, 5, "nginx".data⟩ : PortInfo) ∈
      scan_open_ports_merge
        [⟨"udp".data, 53, "0.0.0.0".data, 0, "desconocido".data⟩,
         ⟨"tcp".data, 80, "0.0.0.0".data, 5, "nginx".data⟩]
        [⟨"tcp".data, 80, "0.0.0.0".data, 0, "desconocido".data⟩] := by
  constructor
  · exact ((scan_merge_reconciliation_props).2.1
      [⟨"udp".data, 53, "0.0.0.0".data, 0, "desconocido".data⟩,
       ⟨"tcp".data, 80, "0.0.0.0".data, 5, "nginx".data⟩]
      (by decide) (by decide)).1
  · exact ((scan_merge_reconciliation_props).2.2.1
      [⟨"udp".data, 53, "0.0.0.0".data, 0, "desconocido".data⟩,
       ⟨"tcp".data, 80, "0.0.0.0".data, 5, "nginx".data⟩]
      [⟨"tcp".data, 80, "0.0.0.0".data, 0, "desconocido".data⟩]
      (by decide)
      ⟨"tcp".data, 80, "0.0.0.0".data, 5, "nginx".data⟩ (by decide)
      ⟨"tcp".data, 80, "0.0.0.0".data, 0, "desconocido".data⟩ (by decide)
      (by decide) (by decide) (by decide)).1

/-! Claim C9. -/

/-- C9, counterexample.  Two runs whose set-A inputs hold the same set of
records (two distinct records sharing the key `(tcp, 80)`, both with known
owners) produce different outputs depending on insertion order: the
`and_modify` rule keeps the first record when both owners are known, so the
output is not a pure function of content. -/
theorem scan_merge_order_dep_cex :
    ([⟨"tcp".data, 80, "a".data, 1, "x".data⟩, ⟨"tcp".data, 80, "a".data, 2, "y".data⟩] :
        List PortInfo).Perm
      [⟨"tcp".data, 80, "a".data, 2, "y".data⟩, ⟨"tcp".data, 80, "a".data, 1, "x".data⟩] ∧
    scan_open_ports_merge
        [⟨"tcp".data, 80, "a".data, 1, "x".data⟩, ⟨"tcp".data, 80, "a".data, 2, "y".data⟩] [] ≠
      scan_open_ports_merge
        [⟨"tcp".data, 80, "a".data, 2, "y".data⟩, ⟨"tcp".data, 80, "a".data, 1, "x".data⟩] [] := by
  constructor
  · exact List.Perm.swap _ _ _
  · decide

/-- C9 (amended).  The merged output is sorted ascending by
`(port, protocol)` and, provided each input source holds at most one record
per `(protocol, port)` key, it is a pure function of the input contents:
reordering either source leaves the output list identical. -/
theorem scan_merge_content_determined :
    (∀ A B : List PortInfo, List.Sorted keyLe (scan_open_ports_merge A B)) ∧
    (∀ A A' B B' : List PortInfo, nodupKeys A → nodupKeys B →
      A.Perm A' → B.Perm B' →
      scan_open_ports_merge A B = scan_open_ports_merge A' B') := by
  refine ⟨scan_merge_sorted, ?_⟩
  intro A A' B B' hA hB pA pB
  have hperm : (buildPortsMap A B).Perm (buildPortsMap A' B') := by
    refine (List.perm_ext_iff_of_nodup
      (nodup_of_nodupKeys (nodupKeys_buildPortsMap A B))
      (nodup_of_nodupKeys (nodupKeys_buildPortsMap A' B'))).mpr ?_
    intro q
    rw [mem_iff_findKey (nodupKeys_buildPortsMap A B) q,
      mem_iff_findKey (nodupKeys_buildPortsMap A' B') q,
      findKey_congr_of_content hA hB pA pB]
  refine eq_of_perm_of_key_sorted ?_ ?_ ?_
  · exact (scan_merge_perm A B).trans (hperm.trans (scan_merge_perm A' B').symm)
  · exact pairwise_keyLt_of_sorted_nodup (scan_merge_sorted A B) (nodupKeys_scan_merge A B)
  · exact pairwise_keyLt_of_sorted_nodup (scan_merge_sorted A' B') (nodupKeys_scan_merge A' B')

/-- C9 witness: reordering both (duplicate-key-free) sources leaves the
merged output unchanged. -/
theorem scan_merge_content_determined_witness :
    scan_open_ports_merge
        [⟨"udp".data, 53, "a".data, 1, "x".data⟩, ⟨"tcp".data, 80, "a".data, 2, "y".data⟩]
        [⟨"tcp".data, 8080, "b".data, 0, "desconocido".data⟩] =
      scan_open_ports_merge
        [⟨"tcp".data, 80, "a".data, 2, "y".data⟩, ⟨"udp".data, 53, "a".data, 1, "x".data⟩]
        [⟨"tcp".data, 8080, "b".data, 0, "desconocido".data⟩] :=
  scan_merge_content_determined.2
    [⟨"udp".data, 53, "a".data, 1, "x".data⟩, ⟨"tcp".data, 80, "a".data, 2, "y".data⟩]
    [⟨"tcp".data, 80, "a".data, 2, "y".data⟩, ⟨"udp".data, 53, "a".data, 1, "x".data⟩]
    [⟨"tcp".data, 8080, "b".data, 0, "desconocido".data⟩]
    [⟨"tcp".data, 8080, "b".data, 0, "desconocido".data⟩]
    (by decide) (by decide) (List.Perm.swap _ _ _) (List.Perm.refl _)

/-! Digit-string and split lemmas for the textual parsers. -/

theorem foldVal_cons (base : Nat) (digv : Char → Option Nat) (acc : Nat) (c : Char)
    (cs : List Char) :
    foldVal base digv acc (c :: cs) = foldVal base digv (acc * base + (digv c).getD 0) cs := rfl

theorem foldVal_le {base : Nat} (hb : 1 ≤ base) (digv : Char → Option Nat)
    (l : List Char) : ∀ acc, acc ≤ foldVal base digv acc l := by
  induction l with
  | nil => intro acc; exact Nat.le_refl acc
  | cons c cs ih =>
    intro acc
    rw [foldVal_cons]
    refine Nat.le_trans ?_ (ih (acc * base + (digv c).getD 0))
    calc acc = acc * 1 := (Nat.mul_one acc).symm
    _ ≤ acc * base := Nat.mul_le_mul_left acc hb
    _ ≤ acc * base + (digv c).getD 0 := Nat.le_add_right _ _

theorem parseDigitsGo_eq {base bound : Nat} {digv : Char → Option Nat}
    (hb : 1 ≤ base) {l : List Char} (hd : ∀ c ∈ l, (digv c).isSome) :
    ∀ acc, foldVal base digv acc l < bound →
      parseDigitsGo base digv bound acc l = some (foldVal base digv acc l) := by
  induction l with
  | nil =>
    intro acc _
    rfl
  | cons c cs ih =>
    intro acc hbound
    rcases hc : digv c with _ | d
    · have := hd c (List.mem_cons_self c cs)
      rw [hc] at this
      cases this
    · unfold parseDigitsGo
      rw [hc]
      rw [foldVal_cons, hc] at hbound ⊢
      simp only [Option.getD_some] at hbound ⊢
      rw [if_pos (Nat.lt_of_le_of_lt (foldVal_le hb digv cs _) hbound)]
      exact ih (fun x hx => hd x (List.mem_cons_of_mem c hx)) _ hbound

theorem rustParseNat_digits {base bound : Nat} {digv : Char → Option Nat}
    (hb : 1 ≤ base) (hplus : digv '+' = none) {l : List Char} (hne : l ≠ [])
    (hd : ∀ c ∈ l, (digv c).isSome) (hbound : foldVal base digv 0 l < bound) :
    rustParseNat base digv bound l = some (foldVal base digv 0 l) := by
  cases l with
  | nil => exact absurd rfl hne
  | cons c cs =>
    have hc : c ≠ '+' := by
      intro h
      have := hd c (List.mem_cons_self c cs)
      rw [h, hplus] at this
      cases this
    simp only [rustParseNat]
    rw [if_neg hc]
    exact parseDigitsGo_eq hb hd 0 hbound

theorem digitVal16_lt {c : Char} {v : Nat} (h : digitVal16 c = some v) : v < 16 := by
  unfold digitVal16 isAsciiDigit at h
  split_ifs at h with h1 h2 h3
  · simp only [Bool.and_eq_true, decide_eq_true_eq] at h1
    have hc : c.toNat ≤ 57 := h1.2
    have hc' : 48 ≤ c.toNat := h1.1
    cases h
    show c.toNat - 48 < 16
    omega
  · simp only [Bool.and_eq_true, decide_eq_true_eq] at h2
    have hc : c.toNat ≤ 102 := h2.1
    have hc' : 97 ≤ c.toNat := h2.2
    cases h
    show c.toNat - 97 + 10 < 16
    omega
  · simp only [Bool.and_eq_true, decide_eq_true_eq] at h3
    have hc : c.toNat ≤ 70 := h3.1
    have hc' : 65 ≤ c.toNat := h3.2
    cases h
    show c.toNat - 65 + 10 < 16
    omega

theorem foldVal_lt_pow {base : Nat} {digv : Char → Option Nat} {l : List Char}
    (hdig : ∀ c ∈ l, (digv c).getD 0 < base) :
    ∀ acc, foldVal base digv acc l < (acc + 1) * base ^ l.length := by
  induction l with
  | nil =>
    intro acc
    simp [foldVal]
  | cons c cs ih =>
    intro acc
    rw [foldVal_cons]
    have h1 := ih (fun x hx => hdig x (List.mem_cons_of_mem c hx)) (acc * base + (digv c).getD 0)
    refine Nat.lt_of_lt_of_le h1 ?_
    have hd : (digv c).getD 0 < base := hdig c (List.mem_cons_self c cs)
    have h2 : acc * base + (digv c).getD 0 + 1 ≤ (acc + 1) * base := by
      have : (acc + 1) * base = acc * base + base := by ring
      omega
    calc (acc * base + (digv c).getD 0 + 1) * base ^ cs.length
        ≤ ((acc + 1) * base) * base ^ cs.length := Nat.mul_le_mul_right _ h2
      _ = (acc + 1) * base ^ (c :: cs).length := by
          rw [List.length_cons, Nat.pow_succ]
          ring

theorem splitCharGo_nil (sep : Char) (acc : List Char) :
    splitCharGo sep [] acc = [acc.reverse] := rfl

theorem splitCharGo_cons (sep c : Char) (cs acc : List Char) :
    splitCharGo sep (c :: cs) acc =
      if c = sep then acc.reverse :: splitCharGo sep cs []
      else splitCharGo sep cs (c :: acc) := rfl

theorem splitCharGo_no_sep {sep : Char} {b : List Char} (h : sep ∉ b) :
    ∀ acc, splitCharGo sep b acc = [acc.reverse ++ b] := by
  induction b with
  | nil =>
    intro acc
    rw [splitCharGo_nil]
    simp
  | cons x b ih =>
    intro acc
    have hx : ¬ x = sep := fun he => h (he ▸ List.mem_cons_self x b)
    rw [splitCharGo_cons, if_neg hx,
      ih (fun hm => h (List.mem_cons_of_mem x hm)) (x :: acc)]
    simp

theorem splitCharGo_append {sep : Char} {a b : List Char} (h : sep ∉ a) :
    ∀ acc, splitCharGo sep (a ++ sep :: b) acc =
      (acc.reverse ++ a) :: splitCharGo sep b [] := by
  induction a with
  | nil =>
    intro acc
    rw [List.nil_append, splitCharGo_cons, if_pos rfl]
    simp
  | cons x a ih =>
    intro acc
    have hx : ¬ x = sep := fun he => h (he ▸ List.mem_cons_self x a)
    rw [List.cons_append, splitCharGo_cons, if_neg hx,
      ih (fun hm => h (List.mem_cons_of_mem x hm)) (x :: acc)]
    simp

theorem splitChar_two {sep : Char} {a b : List Char} (ha : sep ∉ a) (hb : sep ∉ b) :
    splitChar (a ++ sep :: b) sep = [a, b] := by
  unfold splitChar
  rw [splitCharGo_append ha [], splitCharGo_no_sep hb []]
  simp

theorem digitVal16_isSome_ne_colon {c : Char} (h : (digitVal16 c).isSome) : c ≠ ':' := by
  intro he
  subst he
  simp [digitVal16, isAsciiDigit] at h

theorem dottedQuad_reverse_bytesBE (n : Nat) :
    dottedQuad (bytesBE n).reverse =
      natToDecimal (n % 256) ++ '.' :: natToDecimal (n / 2 ^ 8 % 256) ++ '.' ::
      natToDecimal (n / 2 ^ 16 % 256) ++ '.' :: natToDecimal (n / 2 ^ 24 % 256) := by
  simp [dottedQuad, bytesBE, List.append_assoc]

/-! Claim C6. -/

/-- C6.  `parse_hex_address` on the two specification examples, and in
general: an 8-hex-digit address decodes to the dotted quad of the 32-bit
value's bytes taken in reverse order, with the port being the hex value of
the segment after the colon. -/
theorem parse_hex_address_spec :
    (parse_hex_address "00000000:0BB8".data = some ("0.0.0.0".data, 3000)) ∧
    (parse_hex_address "0100007F:1538".data = some ("127.0.0.1".data, 5432)) ∧
    (∀ n : Nat, dottedQuad (bytesBE n).reverse =
      natToDecimal (n % 256) ++ '.' :: natToDecimal (n / 2 ^ 8 % 256) ++ '.' ::
      natToDecimal (n / 2 ^ 16 % 256) ++ '.' :: natToDecimal (n / 2 ^ 24 % 256)) ∧
    (∀ ds ps : List Char, ds.length = 8 →
      (∀ c ∈ ds, (digitVal16 c).isSome) → ps ≠ [] →
      (∀ c ∈ ps, (digitVal16 c).isSome) → hexToNat ps < 2 ^ 16 →
      parse_hex_address (ds ++ ':' :: ps) =
        some (dottedQuad (bytesBE (hexToNat ds)).reverse, hexToNat ps)) := by
  refine ⟨by decide, by decide, dottedQuad_reverse_bytesBE, ?_⟩
  intro ds ps hlen hds hne hps hbound
  have hcds : ':' ∉ ds := fun hm => digitVal16_isSome_ne_colon (hds _ hm) rfl
  have hcps : ':' ∉ ps := fun hm => digitVal16_isSome_ne_colon (hps _ hm) rfl
  have hport : parseU16Hex ps = some (hexToNat ps) :=
    rustParseNat_digits (by omega) (by decide) hne hps hbound
  have hdne : ds ≠ [] := by
    intro h
    rw [h] at hlen
    cases hlen
  have hipbound : hexToNat ds < 2 ^ 32 := by
    have hd : ∀ c ∈ ds, (digitVal16 c).getD 0 < 16 := by
      intro c hc
      rcases Option.isSome_iff_exists.mp (hds c hc) with ⟨v, hv⟩
      rw [hv]
      exact digitVal16_lt hv
    have hfv := foldVal_lt_pow hd 0
    rw [hlen] at hfv
    have h16 : (0 + 1) * 16 ^ 8 = 2 ^ 32 := by norm_num
    rw [h16] at hfv
    exact hfv
  have hip : parseU32Hex ds = some (hexToNat ds) :=
    rustParseNat_digits (by omega) (by decide) hdne hds hipbound
  unfold parse_hex_address
  rw [splitChar_two hcds hcps]
  simp only [hport, hip, hlen, Option.bind_eq_bind, Option.some_bind, if_pos rfl,
    dottedQuad_reverse_bytesBE]
  rfl

/-- C6 witness: the general decoding law at the concrete address
`C0A80101:1F90` (192.168.1.1, port 8080). -/
theorem parse_hex_address_spec_witness :
    parse_hex_address ("C0A80101".data ++ ':' :: "1F90".data) =
      some (dottedQuad (bytesBE (hexToNat "C0A80101".data)).reverse,
        hexToNat "1F90".data) :=
  parse_hex_address_spec.2.2.2 "C0A80101".data "1F90".data (by decide) (by decide)
    (by decide) (by decide) (by decide)

/-! Claim C7. -/

theorem parseDigitsGo_sound {base bound : Nat} {digv : Char → Option Nat} {l : List Char} :
    ∀ {acc v : Nat}, parseDigitsGo base digv bound acc l = some v →
      v = foldVal base digv acc l := by
  induction l with
  | nil =>
    intro acc v h
    cases h
    rfl
  | cons c cs ih =>
    intro acc v h
    unfold parseDigitsGo at h
    rcases hc : digv c with _ | d
    · rw [hc] at h
      cases h
    · rw [hc] at h
      simp only [] at h
      split at h
      · rw [foldVal_cons, hc]
        simp only [Option.getD_some]
        exact ih h
      · cases h

theorem parseU16Hex_sound {P : List Char} {v : Nat} (h : parseU16Hex P = some v)
    (hdig : ∀ c ∈ P, (digitVal16 c).isSome) : v = hexToNat P := by
  cases P with
  | nil => cases h
  | cons c cs =>
    have hc : c ≠ '+' := by
      intro he
      have hm := hdig c (List.mem_cons_self c cs)
      rw [he, show digitVal16 '+' = none from by decide] at hm
      cases hm
    simp only [parseU16Hex, rustParseNat] at h
    rw [if_neg hc] at h
    exact parseDigitsGo_sound h

/-- C7.  The kernel-table parser skips the header line; a line with fewer
than 10 whitespace tokens yields no record; a TCP line yields a record only
when its state token is `0A` and a UDP line only when it is `07`; a produced
record's port is the (non-zero) hex value of the segment after the colon of
the local-address token. -/
theorem parse_proc_net_spec :
    (∀ (content proto : List Char) (m : Nat → Option (Nat × List Char))
      (l0 : List Char) (ls : List (List Char)), linesOf content = l0 :: ls →
      parse_proc_net_file content proto m =
        ls.filterMap (fun l => parse_proc_net_line l proto m)) ∧
    (∀ (line proto : List Char) (m : Nat → Option (Nat × List Char)),
      (splitWs line).length < 10 → parse_proc_net_line line proto m = none) ∧
    (∀ (line : List Char) (m : Nat → Option (Nat × List Char)) (r : PortInfo),
      parse_proc_net_line line "tcp".data m = some r →
        (splitWs line).getD 3 [] = "0A".data) ∧
    (∀ (line : List Char) (m : Nat → Option (Nat × List Char)) (r : PortInfo),
      parse_proc_net_line line "udp".data m = some r →
        (splitWs line).getD 3 [] = "07".data) ∧
    (∀ (line proto : List Char) (m : Nat → Option (Nat × List Char)) (r : PortInfo),
      parse_proc_net_line line proto m = some r →
        parse_hex_address ((splitWs line).getD 1 []) = some (r.local_address, r.port) ∧
        r.port ≠ 0) ∧
    (∀ (A P addr : List Char) (v : Nat),
      parse_hex_address (A ++ ':' :: P) = some (addr, v) →
      ':' ∉ A → ':' ∉ P → (∀ c ∈ P, (digitVal16 c).isSome) → v = hexToNat P) := by
  refine ⟨?_, ?_, ?_, ?_, ?_, ?_⟩
  · intro content proto m l0 ls h
    unfold parse_proc_net_file
    rw [h]
    rfl
  · intro line proto m h
    unfold parse_proc_net_line
    simp only []
    rw [if_pos h]
  · intro line m r h
    unfold parse_proc_net_line at h
    simp only [] at h
    split at h
    · cases h
    · split at h
      · cases h
      · rename_i hc
        by_contra hstate
        exact hc ⟨by trivial, hstate⟩
  · intro line m r h
    unfold parse_proc_net_line at h
    simp only [] at h
    split at h
    · cases h
    · split at h
      · cases h
      · split at h
        · cases h
        · rename_i hc
          by_contra hstate
          exact hc ⟨by trivial, hstate⟩
  · intro line proto m r h
    unfold parse_proc_net_line at h
    simp only [] at h
    split at h
    · cases h
    · split at h
      · cases h
      · split at h
        · cases h
        · split at h
          · cases h
          · rename_i heq
            split at h
            · cases h
            · rename_i hz
              cases h
              exact ⟨heq, hz⟩
  · intro A P addr v h hA hP hdig
    unfold parse_hex_address at h
    rw [splitChar_two hA hP] at h
    simp only [] at h
    rcases hpv : parseU16Hex P with _ | w
    · rw [hpv] at h
      cases h
    · rw [hpv] at h
      repeat' split at h
      · rcases hip : parseU32Hex A with _ | ip
        · rw [hip] at h
          cases h
        · rw [hip] at h
          cases h
          exact parseU16Hex_sound hpv hdig
      · cases h
        exact parseU16Hex_sound hpv hdig
      · cases h
        exact parseU16Hex_sound hpv hdig
      · cases h
        exact parseU16Hex_sound hpv hdig
      · cases h

/-- C7 witness: the parser properties at a concrete kernel-table file (a
header line followed by one listening-socket line for 127.0.0.1:3000). -/
theorem parse_proc_net_spec_witness :
    (parse_proc_net_file
        ("hdr\n   0: 0100007F:0BB8 00000000:0000 0A 00000000:00000000 " ++
          "00:00000000 00000000  1000        0 22881 1 0000000000000000 100 0 0 10 0").data
        "tcp".data (fun _ => none) =
      [("   0: 0100007F:0BB8 00000000:0000 0A 00000000:00000000 " ++
          "00:00000000 00000000  1000        0 22881 1 0000000000000000 100 0 0 10 0").data].filterMap
        (fun l => parse_proc_net_line l "tcp".data (fun _ => none))) ∧
    (parse_proc_net_line "   0: 0100007F:0BB8 00000000:0000 0A".data "tcp".data
      (fun _ => none) = none) ∧
    ((splitWs ("   0: 0100007F:0BB8 00000000:0000 0A 00000000:00000000 " ++
        "00:00000000 00000000  1000        0 22881 1 0000000000000000 100 0 0 10 0").data).getD 3 [] =
      "0A".data) ∧
    ((3000 : Nat) = hexToNat "0BB8".data) := by
  refine ⟨?_, ?_, ?_, ?_⟩
  · exact parse_proc_net_spec.1 _ "tcp".data (fun _ => none) "hdr".data _ (by decide)
  · exact parse_proc_net_spec.2.1 _ "tcp".data (fun _ => none) (by decide)
  · exact parse_proc_net_spec.2.2.1 _ (fun _ => none)
      ⟨"tcp".data, 3000, "127.0.0.1".data, 0, "desconocido".data⟩ (by decide)
  · exact parse_proc_net_spec.2.2.2.2.2 "0100007F".data "0BB8".data "127.0.0.1".data 3000
      (by decide) (by decide) (by decide) (by decide)

/-! Claim C8: whitespace-splitting survives trimming, and the per-field
acceptance test of the command-output parser. -/

theorem splitWsAux_nil (acc : List Char) :
    splitWsAux [] acc = if acc = [] then [] else [acc.reverse] := rfl

theorem splitWsAux_cons (c : Char) (cs acc : List Char) :
    splitWsAux (c :: cs) acc =
      if isWsChar c then
        if acc = [] then splitWsAux cs [] else acc.reverse :: splitWsAux cs []
      else splitWsAux cs (c :: acc) := rfl

theorem splitWsAux_trimRight (l : List Char) :
    ∀ acc, splitWsAux (trimRight l) acc = splitWsAux l acc := by
  induction l with
  | nil => intro acc; rfl
  | cons c cs ih =>
    intro acc
    unfold trimRight
    simp only []
    by_cases hc : trimRight cs = [] ∧ isWsChar c = true
    · rw [if_pos hc]
      rw [splitWsAux_nil, splitWsAux_cons, if_pos hc.2]
      have hcs : splitWsAux cs [] = [] := by
        rw [← ih [], hc.1, splitWsAux_nil, if_pos rfl]
      rw [hcs]
    · rw [if_neg hc]
      rw [splitWsAux_cons, splitWsAux_cons]
      by_cases hw : isWsChar c
      · rw [if_pos hw, if_pos hw, ih []]
      · rw [if_neg hw, if_neg hw, ih (c :: acc)]

theorem splitWs_trimLeft (l : List Char) : splitWs (trimLeft l) = splitWs l := by
  induction l with
  | nil => rfl
  | cons c cs ih =>
    unfold trimLeft at ih ⊢
    rw [List.dropWhile_cons]
    by_cases hw : isWsChar c
    · rw [if_pos hw]
      rw [ih]
      unfold splitWs
      rw [splitWsAux_cons, if_pos hw, if_pos rfl]
    · rw [if_neg hw]

theorem splitWs_rustTrim (l : List Char) : splitWs (rustTrim l) = splitWs l := by
  unfold rustTrim
  rw [splitWs_trimLeft (trimRight l)]
  unfold splitWs
  exact splitWsAux_trimRight l []

theorem digitsValGo_of_parseDigitsGo {bound : Nat} {l : List Char} :
    ∀ {acc v : Nat}, parseDigitsGo 10 digitVal10 bound acc l = some v →
      digitsValGo acc l = some v := by
  induction l with
  | nil =>
    intro acc v h
    cases h
    rfl
  | cons c cs ih =>
    intro acc v h
    unfold parseDigitsGo at h
    unfold digitsValGo
    rcases hc : digitVal10 c with _ | d
    · rw [hc] at h
      cases h
    · rw [hc] at h
      simp only [] at h ⊢
      split at h
      · exact ih h
      · cases h

theorem parseNatAny_of_parseU16 {l : List Char} {v : Nat}
    (h : parseU16 l = some v) : parseNatAny l = some v := by
  cases l with
  | nil => cases h
  | cons c cs =>
    simp only [parseU16, rustParseNat] at h
    simp only [parseNatAny]
    by_cases hc : c = '+'
    · rw [if_pos hc] at h ⊢
      cases cs with
      | nil => cases h
      | cons d ds => exact digitsValGo_of_parseDigitsGo h
    · rw [if_neg hc] at h ⊢
      exact digitsValGo_of_parseDigitsGo h

theorem tryField_accepted {f : List Char} {ap : List Char × Nat}
    (h : tryField f = some ap) :
    looksLikeAddress f = true ∧ portCandidate f = true := by
  unfold tryField at h
  simp only [] at h
  split at h
  · rename_i haddr
    refine ⟨haddr, ?_⟩
    unfold portCandidate
    rcases hrf : rfindChar f ':' with _ | i
    · rw [hrf] at h
      cases h
    · rw [hrf] at h
      simp only [] at h
      simp only []
      by_cases hstar : f.drop (i + 1) = ['*']
      · rw [if_pos hstar] at h
        cases h
      · rw [if_neg hstar] at h
        rw [if_neg hstar]
        rcases hp : parseU16 (f.drop (i + 1)) with _ | p
        · rw [hp] at h
          cases h
        · rw [hp] at h
          simp only [] at h
          rw [parseNatAny_of_parseU16 hp]
          by_cases hpos : 0 < p
          · simp only [decide_eq_true_eq]
            omega
          · rw [if_neg hpos] at h
            cases h
  · cases h

/-- C8.  A command-output line none of whose whitespace fields both looks
like a socket address (contains `.`, `[`, `::`, or starts with `*`) and
carries a numeric non-zero port after its last colon (with `*` rejected as
the remote-address wildcard) yields no record; empty and malformed lines are
special cases. -/
theorem parse_ss_no_valid_field_none :
    ∀ (line proto : List Char),
      (∀ f ∈ splitWs line,
        ¬ (looksLikeAddress f = true ∧ portCandidate f = true)) →
      parse_single_ss_line line proto = none := by
  intro line proto h
  unfold parse_single_ss_line
  simp only []
  split
  · rfl
  · have hnone : extract_address_and_port (rustTrim line) = none := by
      unfold extract_address_and_port
      rw [List.findSome?_eq_none_iff]
      intro f hf
      rw [splitWs_rustTrim] at hf
      rcases htf : tryField f with _ | ap
      · rfl
      · exact absurd (tryField_accepted htf) (h f hf)
    rw [hnone]

/-- C8 witness: the empty line, a whitespace-only line, and a header-like
line with no address-looking field yield no record. -/
theorem parse_ss_no_valid_field_none_witness :
    parse_single_ss_line [] "tcp".data = none ∧
    parse_single_ss_line "   ".data "tcp".data = none ∧
    parse_single_ss_line "State Recv-Q Send-Q".data "tcp".data = none := by
  refine ⟨?_, ?_, ?_⟩
  · exact parse_ss_no_valid_field_none [] "tcp".data (by decide)
  · exact parse_ss_no_valid_field_none "   ".data "tcp".data (by decide)
  · exact parse_ss_no_valid_field_none "State Recv-Q Send-Q".data "tcp".data (by decide)

/-! Claim C4: lemmas about substring search. -/

theorem prefix_head {p : Char} {ps l : List Char} (h : (p :: ps) <+: l) :
    l.head? = some p := by
  rcases h with ⟨t, ht⟩
  rw [← ht]
  rfl

theorem not_prefix_of_head_ne {p c : Char} {ps cs : List Char} (h : p ≠ c) :
    ¬ (p :: ps) <+: (c :: cs) := by
  intro hpre
  have := prefix_head hpre
  simp only [List.head?_cons, Option.some.injEq] at this
  exact h this.symm

theorem prefix_append_split {pat a b : List Char} (h : pat <+: a ++ b) :
    pat <+: a ∨ (a.length < pat.length ∧ (pat.drop a.length) <+: b) := by
  rcases le_or_lt pat.length a.length with hle | hlt
  · left
    have hp := (List.prefix_iff_eq_take).mp h
    rw [List.take_append_eq_append_take, Nat.sub_eq_zero_of_le hle, List.take_zero,
      List.append_nil] at hp
    rw [hp]
    exact List.take_prefix _ _
  · right
    refine ⟨hlt, ?_⟩
    rcases h with ⟨t, ht⟩
    refine ⟨t, ?_⟩
    have hd := congrArg (List.drop a.length) ht
    rw [List.drop_append_eq_append_drop, Nat.sub_eq_zero_of_le (Nat.le_of_lt hlt),
      List.drop_zero, List.drop_left] at hd
    rw [← hd]

theorem findSub_eq_some_iff {l pat : List Char} {i : Nat} :
    findSub l pat = some i ↔
      (pat <+: l.drop i ∧ ∀ j < i, ¬ pat <+: l.drop j) := by
  induction l generalizing i with
  | nil =>
    unfold findSub
    by_cases hp : pat.isPrefixOf ([] : List Char)
    · rw [if_pos hp]
      have hpp : pat <+: [] := List.isPrefixOf_iff_prefix.mp hp
      constructor
      · intro h
        cases h
        exact ⟨by simpa using hpp, by omega⟩
      · rintro ⟨h1, h2⟩
        rcases Nat.eq_zero_or_pos i with rfl | hpos
        · rfl
        · exact absurd (by simpa using hpp) (h2 0 hpos)
    · rw [if_neg hp]
      constructor
      · intro h
        cases h
      · rintro ⟨h1, _⟩
        rw [List.drop_nil] at h1
        exact absurd (List.isPrefixOf_iff_prefix.mpr h1) hp
  | cons c cs ih =>
    unfold findSub
    by_cases hp : pat.isPrefixOf (c :: cs)
    · rw [if_pos hp]
      have hpp : pat <+: c :: cs := List.isPrefixOf_iff_prefix.mp hp
      constructor
      · intro h
        cases h
        exact ⟨by simpa using hpp, by omega⟩
      · rintro ⟨h1, h2⟩
        rcases Nat.eq_zero_or_pos i with rfl | hpos
        · rfl
        · exact absurd (by simpa using hpp) (h2 0 hpos)
    · rw [if_neg hp]
      have hnp : ¬ pat <+: c :: cs := fun hx => hp (List.isPrefixOf_iff_prefix.mpr hx)
      constructor
      · intro h
        rcases Option.map_eq_some'.mp h with ⟨i', hi', rfl⟩
        rcases ih.mp hi' with ⟨h1, h2⟩
        refine ⟨h1, ?_⟩
        intro j hj
        cases j with
        | zero => simpa using hnp
        | succ j' =>
          have := h2 j' (by omega)
          simpa using this
      · rintro ⟨h1, h2⟩
        cases i with
        | zero => exact absurd (by simpa using h1) hnp
        | succ i' =>
          have : findSub cs pat = some i' := by
            refine ih.mpr ⟨by simpa using h1, ?_⟩
            intro j hj
            have := h2 (j + 1) (by omega)
            simpa using this
          rw [this]
          rfl

theorem findIdxP_append_first {p : Char → Bool} {a : List Char} {c : Char}
    (ha : ∀ x ∈ a, p x = false) (hc : p c = true) (b : List Char) :
    findIdxP p (a ++ c :: b) = some a.length := by
  induction a with
  | nil =>
    rw [List.nil_append]
    unfold findIdxP
    rw [hc]
    rfl
  | cons x a ih =>
    rw [List.cons_append]
    unfold findIdxP
    rw [ha x (List.mem_cons_self x a), ih (fun y hy => ha y (List.mem_cons_of_mem x hy))]
    rfl

/-! Claim C4: the well-formed ownership-section extraction. -/

theorem prefix_window {pat a b : List Char} {j : Nat} (h : j + pat.length ≤ a.length) :
    pat <+: (a ++ b).drop j ↔ pat <+: a.drop j := by
  have hj : j ≤ a.length := by omega
  rw [List.drop_append_eq_append_drop, Nat.sub_eq_zero_of_le hj, List.drop_zero]
  constructor
  · intro hp
    rcases prefix_append_split hp with hl | ⟨hlen, _⟩
    · exact hl
    · rw [List.length_drop] at hlen
      omega
  · intro hp
    exact hp.trans (List.prefix_append _ _)

theorem drop_append_len {a b : List Char} {n m : Nat} (h : a.length = n) :
    (a ++ b).drop (n + m) = b.drop m := by
  rw [← h, List.drop_append_eq_append_drop,
    List.drop_eq_nil_of_le (Nat.le_add_right _ _), List.nil_append,
    Nat.add_sub_cancel_left]

theorem drop_left_len {a b : List Char} {n : Nat} (h : a.length = n) :
    (a ++ b).drop n = b := by
  rw [← h]
  exact List.drop_left a b

theorem extract_process_info_wellformed
    (pre name pidDs fdDs suffix : List Char)
    (h1 : findSub (pre ++ (wellFormedUsers name pidDs fdDs ++ suffix)) usersMarker =
      some pre.length)
    (h2 : '"' ∉ name)
    (h3 : ¬ occursIn "pid=".data name)
    (h4 : pidDs ≠ [])
    (h5 : ∀ c ∈ pidDs, isAsciiDigit c)
    (h6 : digitsToNat pidDs < 2 ^ 32) :
    extract_process_info (pre ++ (wellFormedUsers name pidDs fdDs ++ suffix)) =
      some (digitsToNat pidDs, name) := by
  set rest1 : List Char :=
    '"' :: ',' :: 'p' :: 'i' :: 'd' :: '=' ::
      (pidDs ++ (',' :: 'f' :: 'd' :: '=' :: (fdDs ++ (')' :: ')' :: suffix)))) with hrest1
  set L : List Char := pre ++ (wellFormedUsers name pidDs fdDs ++ suffix) with hL
  have hdrop : L.drop pre.length = wellFormedUsers name pidDs fdDs ++ suffix := by
    rw [hL]
    exact List.drop_left pre _
  have hsec9 : L.drop pre.length =
      ('u' :: 's' :: 'e' :: 'r' :: 's' :: ':' :: '(' :: '(' :: '"' :: []) ++
        (name ++ rest1) := by
    rw [hdrop, hrest1]
    simp [wellFormedUsers, usersMarker, List.append_assoc]
  have hfind1 : findSub (L.drop pre.length) ("((".data ++ ['"']) = some 6 := by
    rw [hsec9]
    refine findSub_eq_some_iff.mpr ⟨?_, ?_⟩
    · rw [prefix_window (by decide)]
      decide
    · intro j hj
      rw [prefix_window (by simp; omega)]
      interval_cases j <;> decide
  have hdrop9 : (L.drop pre.length).drop 9 = name ++ rest1 := by
    rw [hsec9, drop_left_len (by decide)]
  have hfind2 : findChar ((L.drop pre.length).drop 9) '"' = some name.length := by
    rw [hdrop9, hrest1]
    unfold findChar
    refine findIdxP_append_first ?_ (by decide) _
    intro x hx
    simp only [decide_eq_false_iff_not]
    intro he
    exact h2 (he ▸ hx)
  have hfind3 : findSub (L.drop pre.length) "pid=".data = some (11 + name.length) := by
    refine findSub_eq_some_iff.mpr ⟨?_, ?_⟩
    · have hdeq : (L.drop pre.length).drop (11 + name.length) =
          'p' :: 'i' :: 'd' :: '=' ::
            (pidDs ++ (',' :: 'f' :: 'd' :: '=' :: (fdDs ++ (')' :: ')' :: suffix)))) := by
        rw [show 11 + name.length = 9 + (2 + name.length) from by omega, hsec9,
          drop_append_len (by decide),
          show 2 + name.length = name.length + 2 from by omega,
          drop_append_len rfl, hrest1]
        rfl
      rw [hdeq]
      exact ⟨_, rfl⟩
    · intro j hj hpre
      rcases Nat.lt_or_ge j 9 with h9 | h9
      · have hhead := @prefix_head 'p' ('i' :: 'd' :: '=' :: []) _ hpre
        rw [List.head?_drop, hsec9] at hhead
        interval_cases j <;> rw [List.getElem?_append_left (by decide)] at hhead <;>
          exact absurd hhead (by decide)
      · obtain ⟨m, rfl⟩ : ∃ m, j = 9 + m := ⟨j - 9, by omega⟩
        have hdropj : (L.drop pre.length).drop (9 + m) = (name ++ rest1).drop m := by
          rw [hsec9, drop_append_len (by decide)]
        rcases Nat.lt_or_ge m name.length with hm | hm
        · rw [hdropj, List.drop_append_eq_append_drop,
            Nat.sub_eq_zero_of_le (Nat.le_of_lt hm), List.drop_zero] at hpre
          rcases prefix_append_split hpre with hL' | ⟨hlen, hR⟩
          · exact h3 ⟨m, hL'⟩
          · rw [List.length_drop] at hlen hR
            have hk4 : name.length - m < 4 := by
              have hp4 : ("pid=".data).length = 4 := by decide
              omega
            set k := name.length - m with hkdef
            interval_cases k
            · have hh := @prefix_head 'p' ('i' :: 'd' :: '=' :: []) _ hR
              rw [hrest1] at hh
              simp only [List.head?_cons, Option.some.injEq] at hh
              exact absurd hh (by decide)
            · have hh := @prefix_head 'i' ('d' :: '=' :: []) _ hR
              rw [hrest1] at hh
              simp only [List.head?_cons, Option.some.injEq] at hh
              exact absurd hh (by decide)
            · have hh := @prefix_head 'd' ('=' :: []) _ hR
              rw [hrest1] at hh
              simp only [List.head?_cons, Option.some.injEq] at hh
              exact absurd hh (by decide)
            · have hh := @prefix_head '=' ([]) _ hR
              rw [hrest1] at hh
              simp only [List.head?_cons, Option.some.injEq] at hh
              exact absurd hh (by decide)
        · have hme : m - name.length = 0 ∨ m - name.length = 1 := by omega
          rw [hdropj, List.drop_append_eq_append_drop,
            List.drop_eq_nil_of_le hm, List.nil_append] at hpre
          rcases hme with hme | hme <;> rw [hme, hrest1] at hpre
          · have hh := @prefix_head 'p' ('i' :: 'd' :: '=' :: []) _ hpre
            simp only [List.drop_zero, List.head?_cons, Option.some.injEq] at hh
            exact absurd hh (by decide)
          · rw [List.drop_one, List.tail_cons] at hpre
            have hh := @prefix_head 'p' ('i' :: 'd' :: '=' :: []) _ hpre
            simp only [List.head?_cons, Option.some.injEq] at hh
            exact absurd hh (by decide)
  have hfind2' : findChar ((L.drop pre.length).drop (6 + 3)) '"' = some name.length :=
    hfind2
  have hdrop15 : (L.drop pre.length).drop (11 + name.length + 4) =
      pidDs ++ (',' :: 'f' :: 'd' :: '=' :: (fdDs ++ (')' :: ')' :: suffix))) := by
    rw [show 11 + name.length + 4 = 9 + (name.length + 6) from by omega, hsec9,
      drop_append_len (by decide), drop_append_len rfl, hrest1]
    rfl
  have hrun : findIdxP (fun c => ¬ isAsciiDigit c)
      ((L.drop pre.length).drop (11 + name.length + 4)) = some pidDs.length := by
    rw [hdrop15]
    refine findIdxP_append_first ?_ (by decide) _
    intro x hx
    simp [h5 x hx]
  have hslice_name : slice (L.drop pre.length) (6 + 3) (name.length + (6 + 3)) = name := by
    unfold slice
    rw [Nat.add_sub_cancel]
    rw [show (6 + 3 : Nat) = 9 from rfl, hdrop9]
    exact List.take_left name _
  have hslice_pid : slice (L.drop pre.length) (11 + name.length + 4)
      (pidDs.length + (11 + name.length + 4)) = pidDs := by
    unfold slice
    rw [Nat.add_sub_cancel, hdrop15]
    exact List.take_left pidDs _
  have hdvd : ∀ c ∈ pidDs, (digitVal10 c).isSome := by
    intro c hc
    simp [digitVal10, h5 c hc]
  have hparse : parseU32 pidDs = some (digitsToNat pidDs) :=
    rustParseNat_digits (by omega) (by decide) h4 hdvd h6
  have h1' : findSub L ['u', 's', 'e', 'r', 's', ':', '(', '('] = some pre.length := h1
  have hfind1' : findSub (L.drop pre.length) (['(', '('] ++ ['"']) = some 6 := hfind1
  have hfind3' : findSub (L.drop pre.length) ['p', 'i', 'd', '='] =
      some (11 + name.length) := hfind3
  show extract_process_info L = _
  unfold extract_process_info
  simp only [h1', hfind1', hfind2', hfind3', hrun, hslice_name, hslice_pid, hparse,
    Option.bind_eq_bind, Option.some_bind]
  rfl

theorem findSub_none_no_occur {l pat : List Char} (h : findSub l pat = none) :
    ¬ occursIn pat l := by
  induction l with
  | nil =>
    intro hocc
    rcases hocc with ⟨i, hp⟩
    rw [List.drop_nil] at hp
    unfold findSub at h
    rw [if_pos (List.isPrefixOf_iff_prefix.mpr hp)] at h
    cases h
  | cons c cs ih =>
    intro hocc
    unfold findSub at h
    split at h
    · cases h
    · rcases hocc with ⟨i, hp⟩
      cases i with
      | zero =>
        rename_i hnp
        exact hnp (List.isPrefixOf_iff_prefix.mpr (by simpa using hp))
      | succ i' =>
        have hcs : findSub cs pat = none := by
          rcases hx : findSub cs pat with _ | v
          · rfl
          · rw [hx] at h
            cases h
        exact ih hcs ⟨i', by simpa using hp⟩

theorem not_occursIn_of_hasSub_false {l pat : List Char} (h : hasSub l pat = false) :
    ¬ occursIn pat l := by
  refine findSub_none_no_occur ?_
  unfold hasSub at h
  rcases hx : findSub l pat with _ | v
  · rfl
  · rw [hx] at h
    cases h

/-- C4, counterexample.  The line carries a well-formed
`users:(("apid=9",pid=7,fd=3))` section, so by the claim the owner pid must
be the `pid=7` immediately following the quoted name; but the parser takes
the first `pid=` of the section, which here lies inside the process name,
and returns pid 9. -/
theorem extract_process_info_pid_cex :
    ("0.0.0.0:8080 ".data ++ (wellFormedUsers "apid=9".data "7".data "3".data ++ [])) =
      "0.0.0.0:8080 users:((".data ++ '"' :: "apid=9".data ++ "\",pid=7,fd=3))".data ∧
    digitsToNat "7".data = 7 ∧
    extract_process_info
      ("0.0.0.0:8080 ".data ++ (wellFormedUsers "apid=9".data "7".data "3".data ++ [])) =
      some (9, "apid=9".data) ∧
    (9 : Nat) ≠ 7 := by
  refine ⟨by decide, by decide, by decide, by decide⟩

/-- C4 (amended).  A command-output line with no `users:((` marker yields no
owner; a line whose owner extraction fails still yields a record with owner
`(0, "desconocido")` whenever it has a valid address and port — never a hard
parse failure; a successful owner extraction is attached verbatim; and for a
line whose first `users:((` marker opens a well-formed
`users:(("name",pid=N,fd=K))` section, the extracted owner is `(N', name)`
where `N'` is the value of the first `pid=<digits>` run of the section — the
`pid=N` following the quoted name whenever the name itself contains no `pid=`
(and no quote), as in the well-formedness hypotheses below. -/
theorem extract_process_info_amended :
    (∀ line : List Char, findSub line usersMarker = none →
      extract_process_info line = none) ∧
    (∀ (line proto : List Char) (ap : List Char × Nat),
      extract_process_info (rustTrim line) = none →
      extract_address_and_port (rustTrim line) = some ap →
      parse_single_ss_line line proto =
        some ⟨proto, ap.2, ap.1, 0, "desconocido".data⟩) ∧
    (∀ (line proto : List Char) (ap : List Char × Nat) (owner : Nat × List Char),
      extract_process_info (rustTrim line) = some owner →
      extract_address_and_port (rustTrim line) = some ap →
      parse_single_ss_line line proto =
        some ⟨proto, ap.2, ap.1, owner.1, owner.2⟩) ∧
    (∀ pre name pidDs fdDs suffix : List Char,
      findSub (pre ++ (wellFormedUsers name pidDs fdDs ++ suffix)) usersMarker =
        some pre.length →
      '"' ∉ name → ¬ occursIn "pid=".data name →
      pidDs ≠ [] → (∀ c ∈ pidDs, isAsciiDigit c) → digitsToNat pidDs < 2 ^ 32 →
      extract_process_info (pre ++ (wellFormedUsers name pidDs fdDs ++ suffix)) =
        some (digitsToNat pidDs, name)) := by
  refine ⟨?_, ?_, ?_, extract_process_info_wellformed⟩
  · intro line h
    have h' : findSub line "users:((".data = none := h
    unfold extract_process_info
    rw [h']
    rfl
  · intro line proto ap hnone hap
    unfold parse_single_ss_line
    simp only []
    split
    · rename_i hempty
      rw [hempty] at hap
      cases hap
    · rw [hap, hnone]
      rfl
  · intro line proto ap owner hsome hap
    unfold parse_single_ss_line
    simp only []
    split
    · rename_i hempty
      rw [hempty] at hap
      cases hap
    · rw [hap, hsome]
      rfl

/-- C4 witness: a concrete line with a well-formed ownership section, both
through the general extraction law and through the full line parser. -/
theorem extract_process_info_amended_witness :
    extract_process_info
        ("LISTEN 0 128 0.0.0.0:8080 0.0.0.0:* ".data ++
          (wellFormedUsers "node".data "1234".data "5".data ++ [])) =
      some (digitsToNat "1234".data, "node".data) ∧
    extract_process_info "LISTEN 0 4096 0.0.0.0:3000 0.0.0.0:*".data = none ∧
    parse_single_ss_line "LISTEN 0 4096 0.0.0.0:3000 0.0.0.0:*".data "tcp".data =
      some ⟨"tcp".data, 3000, "0.0.0.0".data, 0, "desconocido".data⟩ := by
  refine ⟨?_, ?_, ?_⟩
  · exact extract_process_info_amended.2.2.2
      "LISTEN 0 128 0.0.0.0:8080 0.0.0.0:* ".data "node".data "1234".data "5".data []
      (by decide) (by decide) (not_occursIn_of_hasSub_false (by decide))
      (by decide) (by decide) (by decide)
  · exact extract_process_info_amended.1 _ (by decide)
  · exact extract_process_info_amended.2.1
      "LISTEN 0 4096 0.0.0.0:3000 0.0.0.0:*".data "tcp".data ("0.0.0.0".data, 3000)
      (by decide) (by decide)

/-! Claim C5. -/

/-- C5.  `kill_process(0)` always fails with the invalid-target error and
issues no external command at all: the returned command trace is empty, so
neither `kill` nor the privilege-escalation wrapper `pkexec` runs. -/
theorem kill_process_zero_pid :
    ∀ exec : KillCmd → CmdOutcome,
      kill_process exec 0 = (Except.error invalidTargetMsg, []) :=
  fun _ => rfl

/-! Claim C10. -/

/-- Closed form of `div_ceil` for a positive denominator and numerator. -/
theorem div_ceil_eq {n k : Nat} (hk : 0 < k) :
    (n + k - 1) / k = n / k + (if 0 < n % k then 1 else 0) := by
  have h1 : n = k * (n / k) + n % k := (Nat.div_add_mod n k).symm
  have h2 : n % k < k := Nat.mod_lt _ hk
  by_cases hr : 0 < n % k
  · rw [if_pos hr]
    rw [show n + k - 1 = k * (n / k) + (k + (n % k - 1)) from by omega]
    rw [Nat.mul_add_div hk]
    rw [Nat.add_comm k (n % k - 1), Nat.add_div_right _ hk]
    rw [Nat.div_eq_of_lt (show n % k - 1 < k from by omega)]
  · rw [if_neg hr]
    rw [show n + k - 1 = k * (n / k) + (k - 1) from by omega]
    rw [Nat.mul_add_div hk]
    rw [Nat.div_eq_of_lt (show k - 1 < k from by omega)]

/-- C10.  Both pagination helpers guard `page_size = 0` (`get_page` returns
the empty list, `total_pages` returns 1), so the division in `total_pages`
never divides by zero; for `page_size > 0`, `total_pages` is the ceiling of
`total_items / page_size` with a minimum of 1. -/
theorem pagination_safety :
    (∀ (ports : List PortInfo) (page : Nat), get_page ports page 0 = []) ∧
    (∀ n : Nat, total_pages n 0 = 1) ∧
    (∀ n k : Nat, 0 < k → total_pages n k = max 1 ((n + k - 1) / k)) := by
  refine ⟨?_, ?_, ?_⟩
  · intro ports page
    unfold get_page
    rw [if_pos rfl]
  · intro n
    unfold total_pages
    rw [if_pos (Or.inr rfl)]
  · intro n k hk
    unfold total_pages
    by_cases hn : n = 0
    · subst hn
      rw [if_pos (Or.inl rfl)]
      rw [Nat.div_eq_of_lt (by omega)]
      simp
    · rw [if_neg (by push_neg; exact ⟨hn, by omega⟩)]
      rw [div_ceil_eq hk]
      have hpos : 0 < n / k + (if 0 < n % k then 1 else 0) := by
        by_cases hr : 0 < n % k
        · simp [hr]
        · rcases Nat.eq_zero_or_pos (n / k) with h | h
          · exfalso
            have h1 : n = k * (n / k) + n % k := (Nat.div_add_mod n k).symm
            rw [h, Nat.mul_zero] at h1
            omega
          · simpa [hr] using h
      rw [Nat.max_eq_right hpos]

/-- C10 witness: the ceiling formula at 25 items, page size 10. -/
theorem pagination_safety_witness :
    total_pages 25 10 = max 1 ((25 + 10 - 1) / 10) :=
  pagination_safety.2.2 25 10 (by decide)

/-! Claim C2: lemmas about `kill_all_port_processes`. -/

theorem dedupConsec_mem {l : List Nat} {x : Nat} (h : x ∈ dedupConsec l) : x ∈ l := by
  induction l with
  | nil => cases h
  | cons a l ih =>
    cases l with
    | nil => exact h
    | cons b rest =>
      unfold dedupConsec at h
      split at h
      · exact List.mem_cons_of_mem a (ih h)
      · rcases List.mem_cons.mp h with rfl | h'
        · exact List.mem_cons_self _ _
        · exact List.mem_cons_of_mem a (ih h')

theorem dedupConsec_sorted_lt {l : List Nat} (h : List.Sorted (· ≤ ·) l) :
    List.Sorted (· < ·) (dedupConsec l) := by
  induction l with
  | nil => exact List.sorted_nil
  | cons a l ih =>
    cases l with
    | nil => exact List.sorted_singleton a
    | cons b rest =>
      unfold dedupConsec
      have hab : a ≤ b := (List.rel_of_sorted_cons h) b (List.mem_cons_self b rest)
      have htail : List.Sorted (· ≤ ·) (b :: rest) := h.of_cons
      split
      · exact ih htail
      · rename_i hne
        refine List.Pairwise.cons ?_ (ih htail)
        intro x hx
        have hxmem := dedupConsec_mem hx
        rcases List.mem_cons.mp hxmem with rfl | hx'
        · omega
        · have : b ≤ x := (List.rel_of_sorted_cons htail) x hx'
          omega

theorem uniquePids_sorted (ports : List PortInfo) :
    List.Sorted (· ≤ ·) (uniquePids ports) := by
  unfold uniquePids
  have hs : List.Sorted (· ≤ ·)
      (((ports.map PortInfo.pid).filter (fun pid => 0 < pid)).insertionSort (· ≤ ·)) :=
    List.sorted_insertionSort _ _
  exact (dedupConsec_sorted_lt hs).imp (fun hab => Nat.le_of_lt hab)

theorem uniquePids_nodup (ports : List PortInfo) : (uniquePids ports).Nodup := by
  unfold uniquePids
  have hs : List.Sorted (· ≤ ·)
      (((ports.map PortInfo.pid).filter (fun pid => 0 < pid)).insertionSort (· ≤ ·)) :=
    List.sorted_insertionSort _ _
  exact (dedupConsec_sorted_lt hs).imp (fun hab => Nat.ne_of_lt hab)

theorem killLoop_eq (exec : KillCmd → CmdOutcome) (pids : List Nat) :
    killLoop exec pids =
      ((pids.filter (fun p => (killErr exec p).isNone)).length,
       pids.filterMap (killErr exec)) := by
  induction pids with
  | nil => rfl
  | cons p rest ih =>
    unfold killLoop
    rw [ih]
    unfold killErr
    rcases h : (kill_process exec p).1 with e | u
    · simp [List.filter_cons, List.filterMap_cons, killErr, h]
    · simp [List.filter_cons, List.filterMap_cons, killErr, h]

theorem killErr_none_iff {exec : KillCmd → CmdOutcome} {p : Nat} :
    (killErr exec p).isNone = true ↔ ∃ u, (kill_process exec p).1 = Except.ok u := by
  unfold killErr
  rcases h : (kill_process exec p).1 with e | u <;> simp

theorem uniquePids_nil : uniquePids [] = [] := rfl

/-- C2.  `kill_all_port_processes` deduplicates and sorts the known pids of
the scanned ports, invokes `kill_process` once per pid (the loop result is
exactly the success count and the per-pid error list), reports partial
success as `Ok(count)`, reports the all-fail case as the `"; "`-joined error
list, and returns an error only when every individual termination failed. -/
theorem kill_all_aggregation :
    (∀ ports : List PortInfo,
      List.Sorted (· ≤ ·) (uniquePids ports) ∧ (uniquePids ports).Nodup) ∧
    (∀ (exec : KillCmd → CmdOutcome) (pids : List Nat),
      killLoop exec pids =
        ((pids.filter (fun p => (killErr exec p).isNone)).length,
         pids.filterMap (killErr exec))) ∧
    (∀ (ports : List PortInfo) (exec : KillCmd → CmdOutcome) (e : List Char),
      kill_all_port_processes ports exec = Except.error e →
      ∀ p ∈ uniquePids ports, ∃ msg, (kill_process exec p).1 = Except.error msg) ∧
    (∀ (ports : List PortInfo) (exec : KillCmd → CmdOutcome),
      0 < ((uniquePids ports).filter (fun p => (killErr exec p).isNone)).length →
      kill_all_port_processes ports exec =
        Except.ok ((uniquePids ports).filter (fun p => (killErr exec p).isNone)).length) ∧
    (∀ (ports : List PortInfo) (exec : KillCmd → CmdOutcome),
      uniquePids ports ≠ [] →
      ((uniquePids ports).filter (fun p => (killErr exec p).isNone)).length = 0 →
      kill_all_port_processes ports exec =
        Except.error (joinSep "; ".data ((uniquePids ports).filterMap (killErr exec)))) := by
  refine ⟨fun ports => ⟨uniquePids_sorted ports, uniquePids_nodup ports⟩, killLoop_eq, ?_, ?_, ?_⟩
  · intro ports exec e herr p hp
    unfold kill_all_port_processes at herr
    simp only [] at herr
    split at herr
    · cases herr
    · split at herr
      · rename_i hnil
        rw [hnil] at hp
        cases hp
      · rw [killLoop_eq] at herr
        simp only [] at herr
        split at herr
        · cases herr
        · split at herr
          · cases herr
          · rename_i hcnt
            have hzero : ((uniquePids ports).filter
                (fun p => (killErr exec p).isNone)).length = 0 := by omega
            have hall : ∀ q ∈ uniquePids ports, ¬ ((killErr exec q).isNone = true) := by
              intro q hq hnone
              have : q ∈ (uniquePids ports).filter (fun p => (killErr exec p).isNone) :=
                List.mem_filter.mpr ⟨hq, hnone⟩
              rcases List.length_eq_zero.mp hzero ▸ this with ⟨⟩
            have := hall p hp
            rcases hkp : (kill_process exec p).1 with msg | u
            · exact ⟨msg, rfl⟩
            · exact absurd (killErr_none_iff.mpr ⟨u, hkp⟩) this
  · intro ports exec hcnt
    have hports : ports ≠ [] := by
      intro hnil
      rw [hnil, uniquePids_nil] at hcnt
      cases hcnt
    have hpids : uniquePids ports ≠ [] := by
      intro hnil
      rw [hnil] at hcnt
      cases hcnt
    unfold kill_all_port_processes
    rw [if_neg hports, if_neg hpids, killLoop_eq]
    simp only []
    repeat' split
    all_goals rfl
  · intro ports exec hpids hzero
    have hports : ports ≠ [] := by
      intro hnil
      rw [hnil, uniquePids_nil] at hpids
      exact hpids rfl
    have hall : ∀ q ∈ uniquePids ports, ¬ ((killErr exec q).isNone = true) := by
      intro q hq hnone
      have : q ∈ (uniquePids ports).filter (fun p => (killErr exec p).isNone) :=
        List.mem_filter.mpr ⟨hq, hnone⟩
      rcases List.length_eq_zero.mp hzero ▸ this with ⟨⟩
    have herrs : (uniquePids ports).filterMap (killErr exec) ≠ [] := by
      rcases hu : uniquePids ports with _ | ⟨p, rest⟩
      · exact absurd hu hpids
      · have hp := hall p (hu ▸ List.mem_cons_self p rest)
        rcases hkq : killErr exec p with _ | msg
        · rw [hkq] at hp
          exact absurd rfl hp
        · rw [List.filterMap_cons, hkq]
          intro hcontra
          cases hcontra
    unfold kill_all_port_processes
    rw [if_neg hports, if_neg hpids, killLoop_eq]
    simp only []
    rw [if_neg herrs, if_neg (by omega)]

/-- C2 witness: two known pids, deduplicated from three records; the kill of
pid 2 fails, the kill of pid 3 succeeds; partial success is reported as
`Ok 1`. -/
theorem kill_all_aggregation_witness :
    (uniquePids
        [⟨"tcp".data, 80, "a".data, 3, "x".data⟩,
         ⟨"tcp".data, 81, "a".data, 2, "y".data⟩,
         ⟨"tcp".data, 82, "a".data, 3, "x".data⟩,
         ⟨"tcp".data, 83, "a".data, 0, "desconocido".data⟩]).Nodup ∧
    kill_all_port_processes
        [⟨"tcp".data, 80, "a".data, 3, "x".data⟩,
         ⟨"tcp".data, 81, "a".data, 2, "y".data⟩,
         ⟨"tcp".data, 82, "a".data, 3, "x".data⟩,
         ⟨"tcp".data, 83, "a".data, 0, "desconocido".data⟩]
        (fun c => match c with
          | KillCmd.kill p => ⟨none, p = 3, "boom".data⟩
          | KillCmd.pkexec _ => ⟨none, false, "boom".data⟩) =
      Except.ok 1 := by
  constructor
  · exact (kill_all_aggregation.1 _).2
  · have h := kill_all_aggregation.2.2.2.1
      [⟨"tcp".data, 80, "a".data, 3, "x".data⟩,
       ⟨"tcp".data, 81, "a".data, 2, "y".data⟩,
       ⟨"tcp".data, 82, "a".data, 3, "x".data⟩,
       ⟨"tcp".data, 83, "a".data, 0, "desconocido".data⟩]
      (fun c => match c with
        | KillCmd.kill p => ⟨none, p = 3, "boom".data⟩
        | KillCmd.pkexec _ => ⟨none, false, "boom".data⟩)
      (by decide)
    rw [h]
    norm_num
    decide

end PortSlayer
